import Mathlib

/-!
GenePop engine: a shallow embedding of the parser / record model / serializer
triad described by the repository's specification, together with proofs of the
stated properties.  The repository itself contains only usage examples of the
engine (notebook cells calling `remove_population`, `remove_locus_by_position`,
`remove_locus_by_name`, `split_in_loci`, `split_in_pops` and the GenePop
reader/writer); the executable implementation is not part of the sources, so
every definition below is modelled from the specification's words.

The textual interface is modelled line-orientedly: a file is a `List String`
of lines (the specification's parser contract is an incoming stream of text
lines), and the contents of one line are manipulated as its `List Char`.
-/

namespace GenePop

/-- Whitespace inside a line: space or tab. -/
def isWS (c : Char) : Bool := c = ' ' || c = '\t'

/-- Decimal digit test, phrased through `Char.toNat` so that arithmetic on
digit codes stays in `Nat`. -/
def isDigitB (c : Char) : Bool := 48 ≤ c.toNat && c.toNat ≤ 57

/-- Drop leading whitespace from a line fragment. -/
def trimStart (l : List Char) : List Char := l.dropWhile isWS

/-- Drop trailing whitespace from a line fragment. -/
def trimEnd (l : List Char) : List Char :=
  match l with
  | [] => []
  | c :: cs =>
    let r := trimEnd cs
    if r.isEmpty then (if isWS c then [] else [c]) else c :: r

/-- Trim whitespace from both ends of a line fragment. -/
def trimC (l : List Char) : List Char := trimEnd (trimStart l)

/-- Split a line on every comma; the separators are consumed. -/
def splitOnComma (l : List Char) : List (List Char) :=
  match l with
  | [] => [[]]
  | c :: cs =>
    if c = ',' then [] :: splitOnComma cs
    else
      match splitOnComma cs with
      | [] => [[c]]
      | t :: ts => (c :: t) :: ts

/-- Split a line at its first comma, when one exists. -/
def breakFirstComma (l : List Char) : Option (List Char × List Char) :=
  match l with
  | [] => none
  | c :: cs =>
    if c = ',' then some ([], cs)
    else (breakFirstComma cs).map (fun p => (c :: p.1, p.2))

theorem length_dropWhile_le' {α : Type} (p : α → Bool) (l : List α) :
    (l.dropWhile p).length ≤ l.length := by
  induction l with
  | nil => simp [List.dropWhile]
  | cons c cs ih =>
    by_cases h : p c
    · simp [List.dropWhile, h]; omega
    · simp [List.dropWhile, h]

/-- Fuel-driven worker for `wsSplit`; the fuel only needs to cover the line's
length, so the two definitions agree on every input. -/
def wsSplitF : Nat → List Char → List (List Char)
  | 0, _ => []
  | fuel + 1, l =>
    match l with
    | [] => []
    | c :: cs =>
      if isWS c then wsSplitF fuel cs
      else (c :: cs.takeWhile (fun d => !isWS d)) :: wsSplitF fuel (cs.dropWhile (fun d => !isWS d))

/-- Split a line on whitespace, dropping all the whitespace; the result is the
list of maximal non-whitespace runs. -/
def wsSplit (l : List Char) : List (List Char) := wsSplitF l.length l

theorem wsSplitF_nil (fuel : Nat) : wsSplitF fuel [] = [] := by
  cases fuel <;> rfl

theorem wsSplitF_succ (fuel : Nat) (c : Char) (cs : List Char) :
    wsSplitF (fuel + 1) (c :: cs) =
      if isWS c then wsSplitF fuel cs
      else (c :: cs.takeWhile (fun d => !isWS d)) ::
        wsSplitF fuel (cs.dropWhile (fun d => !isWS d)) := rfl

theorem wsSplitF_congr : ∀ (f1 f2 : Nat) (l : List Char), l.length ≤ f1 → l.length ≤ f2 →
    wsSplitF f1 l = wsSplitF f2 l := by
  intro f1
  induction f1 with
  | zero =>
    intro f2 l h1 _
    have : l = [] := by
      cases l with
      | nil => rfl
      | cons a as => simp at h1
    subst this
    rw [wsSplitF_nil, wsSplitF_nil]
  | succ n ih =>
    intro f2 l h1 h2
    cases l with
    | nil => rw [wsSplitF_nil, wsSplitF_nil]
    | cons c cs =>
      cases f2 with
      | zero => simp at h2
      | succ m =>
        show wsSplitF (n + 1) (c :: cs) = wsSplitF (m + 1) (c :: cs)
        rw [wsSplitF_succ, wsSplitF_succ]
        by_cases hc : isWS c = true
        · rw [if_pos hc, if_pos hc]
          exact ih m cs (by simp at h1; omega) (by simp at h2; omega)
        · rw [if_neg hc, if_neg hc]
          have hd := length_dropWhile_le' (fun d => !isWS d) cs
          have := ih m (cs.dropWhile (fun d => !isWS d))
            (by simp at h1; omega) (by simp at h2; omega)
          rw [this]

/-- Join tokens with single spaces. -/
def joinSep (ts : List (List Char)) : List Char :=
  match ts with
  | [] => []
  | [t] => t
  | t :: ts' => t ++ ' ' :: joinSep ts'

/-- The numeric value of a digit character. -/
def digitToNat (c : Char) : Nat := c.toNat - 48

/-- The digit character for a value below ten. -/
def digitChar (d : Nat) : Char :=
  match d with
  | 0 => '0' | 1 => '1' | 2 => '2' | 3 => '3' | 4 => '4'
  | 5 => '5' | 6 => '6' | 7 => '7' | 8 => '8' | 9 => '9'
  | _ => '*'

/-- Read a digit run as an unsigned decimal integer (most significant first). -/
def decToNat (l : List Char) : Nat := l.foldl (fun a c => a * 10 + digitToNat c) 0

/-- Fuel-driven worker for `decimalRep`; any fuel at least the value itself
covers all its digits. -/
def decRepF : Nat → Nat → List Char
  | 0, _ => []
  | fuel + 1, n => if n = 0 then [] else decRepF fuel (n / 10) ++ [digitChar (n % 10)]

/-- The decimal representation of a natural number, most significant digit
first; the representation of zero is the single digit zero. -/
def decimalRep (n : Nat) : List Char :=
  if n = 0 then ['0'] else decRepF n n

/-- Left-pad a digit run with zeros to the requested width. -/
def padZeros (w : Nat) (l : List Char) : List Char :=
  List.replicate (w - l.length) '0' ++ l

/-!  Data model.  Modelled from the spec: Record / Population / Individual /
AllelePair, with an allele an optional unsigned integer (missing data is the
explicit `none`). -/

/-- One individual's two alleles at one locus; `none` is missing data. -/
abbrev AllelePair := Option Nat × Option Nat

/-- An individual: a name and one `AllelePair` per locus, in locus order. -/
structure Individual where
  name : String
  genotypes : List AllelePair
deriving DecidableEq, Repr

/-- A population: its ordered individuals. -/
structure Population where
  individuals : List Individual
deriving DecidableEq, Repr

/-- A parsed GenePop record: comment line, ordered locus names, ordered
populations. -/
structure Record where
  comment : String
  loci_list : List String
  populations : List Population
deriving DecidableEq, Repr

/-- The error taxonomy of the engine. -/
inductive PGError where
  | formatError (reason : String)
  | emptyLociList
  | malformedGenotype
  | locusCountMismatch
  | alleleOverflow
  | indexOutOfRange
  | arityMismatch
deriving DecidableEq, Repr

deriving instance DecidableEq for Except

/-!  Genotype codec.  Modelled from the spec: a genotype field is a digit run
of length `2*width`; each `width`-digit group is an allele, the all-zero group
meaning missing data.  Encoding is the exact inverse, zero-padding present
alleles and failing with `AlleleOverflow` when a value needs more than `width`
digits. -/

/-- Does a group consist entirely of the digit zero? -/
def isAllZero (l : List Char) : Bool := l.all (fun c => c == '0')

/-- Decode one `width`-digit group into an allele. -/
def decodeGroup (l : List Char) : Option Nat :=
  if isAllZero l then none else some (decToNat l)

/-- Decode a raw genotype field at a known width. -/
def decode_field (w : Nat) (raw : List Char) : Except PGError AllelePair :=
  if raw.length = 2 * w ∧ raw.all isDigitB = true then
    .ok (decodeGroup (raw.take w), decodeGroup (raw.drop w))
  else .error .malformedGenotype

/-- Encode one allele as a `width`-digit group. -/
def encodeAllele (w : Nat) (a : Option Nat) : Except PGError (List Char) :=
  match a with
  | none => .ok (List.replicate w '0')
  | some v =>
    if w < (decimalRep v).length then .error .alleleOverflow
    else .ok (padZeros w (decimalRep v))

/-- Encode a genotype field at a known width. -/
def encode_field (w : Nat) (p : AllelePair) : Except PGError (List Char) :=
  match encodeAllele w p.1 with
  | .error e => .error e
  | .ok a =>
    match encodeAllele w p.2 with
    | .error e => .error e
    | .ok b => .ok (a ++ b)

/-- Establish the file-level width from the first genotype field's digit-run
length: two 3-digit groups when possible (the format's preferred default),
two 2-digit groups otherwise, anything else being malformed. -/
def detectWidth (len : Nat) : Except PGError Nat :=
  if len = 6 then .ok 3
  else if len = 4 then .ok 2
  else .error .malformedGenotype

/-- The width to decode at: the established one, or the one detected from
this field's length. -/
def widthOf (st : Option Nat) (len : Nat) : Except PGError Nat :=
  match st with
  | some w => .ok w
  | none => detectWidth len

/-- Decode a genotype field, establishing the width from this field when no
width has been established yet, and threading the established width. -/
def decodeFieldAuto (st : Option Nat) (t : List Char) :
    Except PGError (Option Nat × AllelePair) :=
  match widthOf st t.length with
  | .error e => .error e
  | .ok w =>
    match decode_field w t with
    | .error e => .error e
    | .ok g => .ok (some w, g)

/-!  Format parser.  Modelled from the spec: line 1 is the comment; locus-name
lines (one name per line or comma-separated) run until the first line whose
trimmed content is `pop` case-insensitively; each later `Pop` marker starts a
population; each non-blank line in a section is `<name> , <fields>`. -/

/-- Is this line a `Pop` marker (trimmed content `pop`, case-insensitive)? -/
def isPopLine (l : List Char) : Bool := (trimC l).map Char.toLower == ['p', 'o', 'p']

/-- Is this line blank (whitespace only)? -/
def isBlank (l : List Char) : Bool := (trimC l).isEmpty

/-- Locus names carried by one locus-name line: the comma-separated pieces,
each trimmed (a line without a comma is a single name). -/
def parseLociLine (l : List Char) : List String :=
  (splitOnComma l).map (fun p => String.mk (trimC p))

/-- Decode the whitespace-separated genotype fields of one individual,
threading the established width. -/
def decodeFields (st : Option Nat) (ts : List (List Char)) :
    Except PGError (Option Nat × List AllelePair) :=
  match ts with
  | [] => .ok (st, [])
  | t :: ts' =>
    match decodeFieldAuto st t with
    | .error e => .error e
    | .ok (st', g) =>
      match decodeFields st' ts' with
      | .error e => .error e
      | .ok (st'', gs) => .ok (st'', g :: gs)

/-- Parse one individual line: the name before the first comma (trimmed), then
exactly one genotype field per locus. -/
def parseIndLine (nloci : Nat) (st : Option Nat) (l : List Char) :
    Except PGError (Option Nat × Individual) :=
  match breakFirstComma l with
  | none => .error (.formatError "individual line missing the comma separator")
  | some (before, after) =>
    if (wsSplit after).length = nloci then
      match decodeFields st (wsSplit after) with
      | .error e => .error e
      | .ok (st', gts) => .ok (st', ⟨String.mk (trimC before), gts⟩)
    else .error .locusCountMismatch

/-- Parse the body of one population section, skipping blank lines. -/
def parseSection (nloci : Nat) (st : Option Nat) (ls : List (List Char)) :
    Except PGError (Option Nat × List Individual) :=
  match ls with
  | [] => .ok (st, [])
  | l :: ls' =>
    if isBlank l then parseSection nloci st ls'
    else
      match parseIndLine nloci st l with
      | .error e => .error e
      | .ok (st', ind) =>
        match parseSection nloci st' ls' with
        | .error e => .error e
        | .ok (st'', inds) => .ok (st'', ind :: inds)

/-- Parse the population sections; `ls` are the lines right after a `Pop`
marker that has just been consumed. -/
def parsePops (nloci : Nat) (st : Option Nat) (ls : List (List Char)) :
    Except PGError (Option Nat × List Population) :=
  match parseSection nloci st (ls.takeWhile (fun l => !isPopLine l)) with
  | .error e => .error e
  | .ok (st', inds) =>
    match h : ls.dropWhile (fun l => !isPopLine l) with
    | [] => .ok (st', [⟨inds⟩])
    | _ :: rest' =>
      match parsePops nloci st' rest' with
      | .error e => .error e
      | .ok (st'', pops) => .ok (st'', ⟨inds⟩ :: pops)
termination_by ls.length
decreasing_by
  have h1 := length_dropWhile_le' (fun l => !isPopLine l) ls
  rw [h] at h1
  simp at h1 ⊢
  omega

/-- Parse a full file (a list of lines), also reporting the established
genotype width when one was established. -/
def lociOf (rest : List String) : List String :=
  (((rest.map String.data).takeWhile (fun l => !isPopLine l)).map parseLociLine).flatten

def parseFull (lines : List String) : Except PGError (Option Nat × Record) :=
  match lines with
  | [] => .error (.formatError "empty input")
  | comment :: rest =>
    match (rest.map String.data).dropWhile (fun l => !isPopLine l) with
    | [] => .error (.formatError "no Pop marker line")
    | _ :: sections =>
      if (lociOf rest).isEmpty then .error .emptyLociList
      else
        match parsePops (lociOf rest).length none sections with
        | .error e => .error e
        | .ok (st, pops) => .ok (st, ⟨comment, lociOf rest, pops⟩)

/-- Parse a full file into a Record. -/
def parse (lines : List String) : Except PGError Record :=
  (parseFull lines).map Prod.snd

/-!  Format serializer.  Modelled from the spec: comment line, locus names one
per line (canonical form), a `Pop` marker before each population, one line per
individual as `<name> , ` followed by space-separated fixed-width fields. -/

/-- The canonical population marker line. -/
def popMarker : List Char := ['P', 'o', 'p']

/-- Encode every genotype of one individual. -/
def encodeFields (w : Nat) (gs : List AllelePair) : Except PGError (List (List Char)) :=
  match gs with
  | [] => .ok []
  | g :: gs' =>
    match encode_field w g with
    | .error e => .error e
    | .ok f =>
      match encodeFields w gs' with
      | .error e => .error e
      | .ok fs => .ok (f :: fs)

/-- Serialize one individual as one line. -/
def encodeInd (w : Nat) (ind : Individual) : Except PGError (List Char) :=
  match encodeFields w ind.genotypes with
  | .error e => .error e
  | .ok fs => .ok (ind.name.data ++ ' ' :: ',' :: ' ' :: joinSep fs)

/-- Serialize the individuals of one population, one line each. -/
def encodeInds (w : Nat) (inds : List Individual) : Except PGError (List (List Char)) :=
  match inds with
  | [] => .ok []
  | ind :: inds' =>
    match encodeInd w ind with
    | .error e => .error e
    | .ok l =>
      match encodeInds w inds' with
      | .error e => .error e
      | .ok ls => .ok (l :: ls)

/-- Serialize all populations, each preceded by its `Pop` marker line. -/
def encodePops (w : Nat) (ps : List Population) : Except PGError (List (List Char)) :=
  match ps with
  | [] => .ok []
  | p :: ps' =>
    match encodeInds w p.individuals with
    | .error e => .error e
    | .ok ls =>
      match encodePops w ps' with
      | .error e => .error e
      | .ok rest => .ok ((popMarker :: ls) ++ rest)

/-- Serialize a Record at an established genotype width. -/
def serialize (w : Nat) (r : Record) : Except PGError (List String) :=
  match encodePops w r.populations with
  | .error e => .error e
  | .ok pls => .ok (r.comment :: (r.loci_list ++ pls.map String.mk))

/-!  Record model: in-place mutation operations, modelled as functions from
the old Record to the new one. -/

/-- Core locus removal at a valid position: drops the locus name and every
individual's `AllelePair` at that position. -/
def removeLocusAt (r : Record) (pos : Nat) : Record :=
  { comment := r.comment
    loci_list := r.loci_list.eraseIdx pos
    populations := r.populations.map (fun p =>
      ⟨p.individuals.map (fun ind => ⟨ind.name, ind.genotypes.eraseIdx pos⟩)⟩) }

/-- Remove the population at index `pos`; `IndexOutOfRange` when invalid. -/
def remove_population (r : Record) (pos : Nat) : Except PGError Record :=
  if pos < r.populations.length then
    .ok { r with populations := r.populations.eraseIdx pos }
  else .error .indexOutOfRange

/-- Remove the locus at index `pos` from the locus list and from every
individual; `IndexOutOfRange` when invalid. -/
def remove_locus_by_position (r : Record) (pos : Nat) : Except PGError Record :=
  if pos < r.loci_list.length then .ok (removeLocusAt r pos)
  else .error .indexOutOfRange

/-- Remove the locus named `name`; a deliberate silent no-op when the name is
not present. -/
def remove_locus_by_name (r : Record) (name : String) : Record :=
  match r.loci_list.findIdx? (fun n => n == name) with
  | none => r
  | some i => removeLocusAt r i

/-!  Partitioning operations. -/

/-- Insert into a name-keyed association map with last-write-wins on
duplicate keys. -/
def upsert (m : List (String × Record)) (k : String) (v : Record) :
    List (String × Record) :=
  match m with
  | [] => [(k, v)]
  | (k', v') :: m' => if k' = k then (k, v) :: m' else (k', v') :: upsert m' k v

/-- Look a key up in a name-keyed association map. -/
def lookupName (m : List (String × Record)) (k : String) : Option Record :=
  match m with
  | [] => none
  | (k', v) :: m' => if k' = k then some v else lookupName m' k

/-- The single-locus Record for the locus at position `i` named `L`: same
comment, only that locus, and every individual reduced to its `AllelePair`
at position `i`, population and individual order preserved. -/
def sliceLocus (r : Record) (i : Nat) (L : String) : Record :=
  { comment := r.comment
    loci_list := [L]
    populations := r.populations.map (fun p =>
      ⟨p.individuals.map (fun ind => ⟨ind.name, [ind.genotypes.getD i (none, none)]⟩)⟩) }

/-- Split a record in loci: one single-locus Record per locus, keyed by locus
name (last write wins on duplicate names).  The receiver `self` plays no role:
the result is a function of the `rec` argument alone. -/
def split_in_loci (self rec : Record) : List (String × Record) :=
  let _ := self
  (rec.loci_list.enum.map (fun e => (e.2, sliceLocus rec e.1 e.2))).foldl
    (fun m e => upsert m e.1 e.2) []

/-- Split a record in populations: one single-population Record per population
(all loci retained), keyed by the supplied names; `ArityMismatch` when the
name list's length disagrees with the population count. -/
def split_in_pops (r : Record) (pop_names : List String) :
    Except PGError (List (String × Record)) :=
  if pop_names.length = r.populations.length then
    .ok (((pop_names.zip r.populations).map
      (fun e => (e.1, Record.mk r.comment r.loci_list [e.2]))).foldl
        (fun m e => upsert m e.1 e.2) [])
  else .error .arityMismatch

/-!  Facts about trimming. -/

theorem trimEnd_cons (c : Char) (cs : List Char) :
    trimEnd (c :: cs) =
      if (trimEnd cs).isEmpty then (if isWS c then [] else [c]) else c :: trimEnd cs := rfl

theorem trimEnd_append_space (l : List Char) : trimEnd (l ++ [' ']) = trimEnd l := by
  induction l with
  | nil => simp [trimEnd_cons, trimEnd, isWS]
  | cons c cs ih => simp [List.cons_append, trimEnd_cons, ih]

theorem trimEnd_idem (l : List Char) : trimEnd (trimEnd l) = trimEnd l := by
  induction l with
  | nil => rfl
  | cons c cs ih =>
    rcases h : trimEnd cs with _ | ⟨d, ds⟩
    · have h1 : trimEnd (c :: cs) = if isWS c then [] else [c] := by
        rw [trimEnd_cons, h]; simp
      by_cases hw : isWS c
      · rw [h1, if_pos hw]; rfl
      · rw [h1, if_neg hw]
        have h0 : trimEnd ([] : List Char) = [] := rfl
        rw [trimEnd_cons, h0]
        simp [hw]
    · have h1 : trimEnd (c :: cs) = c :: d :: ds := by
        rw [trimEnd_cons, h]; simp
      rw [h1]
      have h2 : trimEnd (d :: ds) = d :: ds := by rw [← h]; exact ih
      rw [trimEnd_cons, h2]
      simp

theorem trimEnd_cons_shape (c : Char) (cs : List Char) :
    trimEnd (c :: cs) = [] ∨ ∃ r, trimEnd (c :: cs) = c :: r := by
  rw [trimEnd_cons]
  by_cases h : (trimEnd cs).isEmpty
  · by_cases hw : isWS c
    · left; simp [h, hw]
    · right; exact ⟨[], by simp [h, hw]⟩
  · right; exact ⟨trimEnd cs, by simp [h]⟩

theorem dropWhile_head_not {p : Char → Bool} {l : List Char} {c : Char} {cs : List Char}
    (h : l.dropWhile p = c :: cs) : p c = false := by
  induction l with
  | nil => simp [List.dropWhile] at h
  | cons x xs ih =>
    by_cases hx : p x
    · exact ih (by simpa [List.dropWhile_cons, hx] using h)
    · rw [List.dropWhile_cons_of_neg hx] at h
      cases h
      exact Bool.of_not_eq_true hx

theorem trimC_idem (l : List Char) : trimC (trimC l) = trimC l := by
  unfold trimC
  rcases hy : trimStart l with _ | ⟨c, cs⟩
  · rfl
  · have hc : isWS c = false := dropWhile_head_not hy
    rcases trimEnd_cons_shape c cs with h0 | ⟨r, hr⟩
    · rw [h0]; rfl
    · rw [hr]
      unfold trimStart
      rw [List.dropWhile_cons_of_neg (by simp [hc])]
      rw [← hr, trimEnd_idem]

theorem trimC_append_space (l : List Char) : trimC (l ++ [' ']) = trimC l := by
  unfold trimC trimStart
  rw [List.dropWhile_append]
  by_cases h : (l.dropWhile isWS).isEmpty
  · rw [if_pos h, List.isEmpty_iff.mp h]
    have hws : List.dropWhile isWS [' '] = [] := by simp [List.dropWhile, isWS]
    rw [hws]
  · rw [if_neg h]
    exact trimEnd_append_space _

theorem mem_trimEnd {x : Char} {l : List Char} (hx : x ∈ l) (hw : isWS x = false) :
    x ∈ trimEnd l := by
  induction l with
  | nil => cases hx
  | cons c cs ih =>
    rcases List.mem_cons.mp hx with rfl | hmem
    · rcases trimEnd_cons_shape x cs with h0 | ⟨r, hr⟩
      · exfalso
        rw [trimEnd_cons] at h0
        by_cases h : (trimEnd cs).isEmpty
        · simp [h, hw] at h0
        · simp [h] at h0
      · rw [hr]; exact List.mem_cons_self _ _
    · have hmem' := ih hmem
      have hne : ¬ (trimEnd cs).isEmpty := by
        intro hemp
        rw [List.isEmpty_iff.mp hemp] at hmem'
        cases hmem'
      rw [trimEnd_cons, if_neg hne]
      exact List.mem_cons_of_mem _ hmem'

theorem mem_trimC {x : Char} {l : List Char} (hx : x ∈ l) (hw : isWS x = false) :
    x ∈ trimC l := by
  unfold trimC trimStart
  refine mem_trimEnd ?_ hw
  induction l with
  | nil => cases hx
  | cons c cs ih =>
    rcases List.mem_cons.mp hx with rfl | hmem
    · rw [List.dropWhile_cons_of_neg (by simp [hw])]
      exact List.mem_cons_self _ _
    · by_cases hc : isWS c
      · rw [List.dropWhile_cons_of_pos hc]; exact ih hmem
      · rw [List.dropWhile_cons_of_neg (by simp [hc])]
        exact List.mem_cons_of_mem _ hmem

theorem trimEnd_subset {x : Char} {l : List Char} (hx : x ∈ trimEnd l) : x ∈ l := by
  induction l with
  | nil => cases hx
  | cons c cs ih =>
    rw [trimEnd_cons] at hx
    by_cases h : (trimEnd cs).isEmpty
    · by_cases hw : isWS c
      · simp [h, hw] at hx
      · simp [h, hw] at hx
        simp [hx]
    · rw [if_neg h] at hx
      rcases List.mem_cons.mp hx with rfl | hx
      · exact List.mem_cons_self _ _
      · exact List.mem_cons_of_mem _ (ih hx)

theorem trimC_subset {x : Char} {l : List Char} (hx : x ∈ trimC l) : x ∈ l := by
  unfold trimC trimStart at hx
  exact (List.dropWhile_sublist isWS).mem (trimEnd_subset hx)

theorem isBlank_eq_false_of_mem {x : Char} {l : List Char} (hx : x ∈ l)
    (hw : isWS x = false) : isBlank l = false := by
  unfold isBlank
  have := mem_trimC hx hw
  rcases h : trimC l with _ | _
  · rw [h] at this; cases this
  · simp

theorem isPopLine_eq_false_of_comma {l : List Char} (h : ',' ∈ l) :
    isPopLine l = false := by
  unfold isPopLine
  by_cases hb : (trimC l).map Char.toLower = ['p', 'o', 'p']
  · exfalso
    have h1 : ',' ∈ trimC l := mem_trimC h (by decide)
    have h2 : Char.toLower ',' ∈ (trimC l).map Char.toLower :=
      List.mem_map_of_mem Char.toLower h1
    rw [hb] at h2
    simp [Char.toLower] at h2
  · exact beq_eq_false_iff_ne.mpr hb

/-!  Facts about splitting. -/

theorem splitOnComma_no_comma {l : List Char} (h : ',' ∉ l) : splitOnComma l = [l] := by
  induction l with
  | nil => rfl
  | cons c cs ih =>
    have hc : ¬ c = ',' := fun hch => h (hch ▸ List.mem_cons_self _ _)
    have hcs : ',' ∉ cs := fun hm => h (List.mem_cons_of_mem _ hm)
    simp [splitOnComma, hc, Ne.symm hc, ih hcs]

theorem breakFirstComma_append {xs ys : List Char} (h : ',' ∉ xs) :
    breakFirstComma (xs ++ ',' :: ys) = some (xs, ys) := by
  induction xs with
  | nil => simp [breakFirstComma]
  | cons c cs ih =>
    have hc : ¬ c = ',' := fun hch => h (hch ▸ List.mem_cons_self _ _)
    have hcs : ',' ∉ cs := fun hm => h (List.mem_cons_of_mem _ hm)
    simp [breakFirstComma, hc, Ne.symm hc, ih hcs]

theorem breakFirstComma_before {l a b : List Char}
    (h : breakFirstComma l = some (a, b)) : ',' ∉ a := by
  induction l generalizing a b with
  | nil => simp [breakFirstComma] at h
  | cons c cs ih =>
    by_cases hc : c = ','
    · simp [breakFirstComma, hc] at h
      rcases h with ⟨h1, h2⟩
      subst h1
      simp
    · simp only [breakFirstComma, if_neg hc] at h
      rcases hab : breakFirstComma cs with _ | ⟨a', b'⟩
      · rw [hab] at h; cases h
      · rw [hab] at h
        simp at h
        rcases h with ⟨h1, h2⟩
        intro hmem
        rw [← h1] at hmem
        rcases List.mem_cons.mp hmem with h3 | h3
        · exact hc h3.symm
        · exact ih hab h3

/-!  Facts about whitespace tokenization. -/

theorem wsSplit_nil : wsSplit [] = [] := rfl

theorem wsSplit_cons_ws {c : Char} (h : isWS c = true) (l : List Char) :
    wsSplit (c :: l) = wsSplit l := by
  show wsSplitF (l.length + 1) (c :: l) = wsSplitF l.length l
  rw [wsSplitF_succ, if_pos h]

theorem wsSplit_cons_not_ws {c : Char} (h : isWS c = false) (l : List Char) :
    wsSplit (c :: l) =
      (c :: l.takeWhile (fun d => !isWS d)) :: wsSplit (l.dropWhile (fun d => !isWS d)) := by
  show wsSplitF (l.length + 1) (c :: l) = _
  rw [wsSplitF_succ, if_neg (by simp [h])]
  have hd := length_dropWhile_le' (fun d => !isWS d) l
  rw [wsSplitF_congr l.length (l.dropWhile (fun d => !isWS d)).length
    (l.dropWhile (fun d => !isWS d)) (by omega) le_rfl]
  rfl

theorem wsSplit_token_append {t : List Char} (hne : t ≠ [])
    (hws : ∀ c ∈ t, isWS c = false) (u : List Char) :
    wsSplit (t ++ ' ' :: u) = t :: wsSplit u := by
  rcases t with _ | ⟨c, cs⟩
  · cases hne rfl
  · have hc : isWS c = false := hws c (List.mem_cons_self _ _)
    have hcs : ∀ d ∈ cs, (fun d => !isWS d) d = true := by
      intro d hd
      simp [hws d (List.mem_cons_of_mem _ hd)]
    rw [List.cons_append, wsSplit_cons_not_ws hc]
    rw [List.takeWhile_append_of_pos hcs, List.dropWhile_append_of_pos hcs]
    have hsp : (fun d => !isWS d) ' ' = false := by simp [isWS]
    rw [List.takeWhile_cons_of_neg (by simp [hsp]), List.dropWhile_cons_of_neg (by simp [hsp])]
    rw [wsSplit_cons_ws (by simp [isWS])]
    simp

theorem wsSplit_single {t : List Char} (hne : t ≠ [])
    (hws : ∀ c ∈ t, isWS c = false) : wsSplit t = [t] := by
  rcases t with _ | ⟨c, cs⟩
  · cases hne rfl
  · have hc : isWS c = false := hws c (List.mem_cons_self _ _)
    have hcs : ∀ d ∈ cs, (fun d => !isWS d) d = true := by
      intro d hd
      simp [hws d (List.mem_cons_of_mem _ hd)]
    rw [wsSplit_cons_not_ws hc]
    rw [List.takeWhile_eq_self_iff.mpr hcs, List.dropWhile_eq_nil_iff.mpr hcs]
    rw [wsSplit_nil]

theorem wsSplit_joinSep {ts : List (List Char)}
    (h : ∀ t ∈ ts, t ≠ [] ∧ ∀ c ∈ t, isWS c = false) : wsSplit (joinSep ts) = ts := by
  induction ts with
  | nil => exact wsSplit_nil
  | cons t ts' ih =>
    rcases ts' with _ | ⟨t2, ts''⟩
    · have ht := h t (List.mem_cons_self _ _)
      exact wsSplit_single ht.1 ht.2
    · have ht := h t (List.mem_cons_self _ _)
      have hrest : ∀ u ∈ t2 :: ts'', u ≠ [] ∧ ∀ c ∈ u, isWS c = false := by
        intro u hu
        exact h u (List.mem_cons_of_mem _ hu)
      show wsSplit (t ++ ' ' :: joinSep (t2 :: ts'')) = t :: t2 :: ts''
      rw [wsSplit_token_append ht.1 ht.2]
      rw [ih hrest]

/-!  Facts about decimal digit runs. -/

theorem digitToNat_digitChar {d : Nat} (h : d < 10) : digitToNat (digitChar d) = d := by
  interval_cases d <;> decide

theorem isDigitB_digitChar {d : Nat} (h : d < 10) : isDigitB (digitChar d) = true := by
  interval_cases d <;> decide

theorem digitChar_ne_zero {d : Nat} (h1 : 0 < d) (h2 : d < 10) : digitChar d ≠ '0' := by
  interval_cases d <;> decide

theorem isDigitB_not_ws {c : Char} (h : isDigitB c = true) : isWS c = false := by
  unfold isDigitB at h
  simp only [Bool.and_eq_true, decide_eq_true_eq] at h
  unfold isWS
  simp only [Bool.or_eq_false_iff, decide_eq_false_iff_not]
  constructor <;> rintro rfl <;> exact absurd h (by decide)

theorem isDigitB_ne_comma {c : Char} (h : isDigitB c = true) : c ≠ ',' := by
  rintro rfl
  exact absurd h (by decide)

theorem foldl_decstep_replicate_zero (k : Nat) :
    List.foldl (fun a c => a * 10 + digitToNat c) 0 (List.replicate k '0') = 0 := by
  induction k with
  | zero => rfl
  | succ n ih => simpa [List.replicate_succ, digitToNat] using ih

theorem decToNat_padZeros (w : Nat) (l : List Char) :
    decToNat (padZeros w l) = decToNat l := by
  unfold decToNat padZeros
  rw [List.foldl_append, foldl_decstep_replicate_zero]

theorem foldr_digits_ofDigits (ds : List Nat) (h : ∀ d ∈ ds, d < 10) :
    ds.foldr (fun d a => a * 10 + digitToNat (digitChar d)) 0 = Nat.ofDigits 10 ds := by
  induction ds with
  | nil => rfl
  | cons d tl ih =>
    have hd : d < 10 := h d (List.mem_cons_self _ _)
    have htl : ∀ x ∈ tl, x < 10 := fun x hx => h x (List.mem_cons_of_mem _ hx)
    rw [List.foldr_cons, ih htl, digitToNat_digitChar hd, Nat.ofDigits_cons]
    ring

theorem decRepF_zeroN (fuel : Nat) : decRepF fuel 0 = [] := by
  cases fuel with
  | zero => rfl
  | succ m => simp [decRepF]

theorem decRepF_eq_digits : ∀ (fuel n : Nat), n ≠ 0 → n ≤ fuel →
    decRepF fuel n = ((Nat.digits 10 n).map digitChar).reverse := by
  intro fuel
  induction fuel with
  | zero =>
    intro n hn h
    omega
  | succ m ih =>
    intro n hn h
    unfold decRepF
    rw [if_neg hn]
    rw [Nat.digits_def' (by norm_num : 1 < 10) (Nat.pos_of_ne_zero hn)]
    simp only [List.map_cons, List.reverse_cons]
    congr 1
    by_cases h0 : n / 10 = 0
    · rw [h0, decRepF_zeroN]
      simp
    · refine ih (n / 10) h0 ?_
      have := Nat.div_lt_self (Nat.pos_of_ne_zero hn) (by norm_num : 1 < 10)
      omega

theorem decimalRep_eq_digits {n : Nat} (h : n ≠ 0) :
    decimalRep n = ((Nat.digits 10 n).map digitChar).reverse := by
  unfold decimalRep
  rw [if_neg h]
  exact decRepF_eq_digits n n h le_rfl

theorem decToNat_decimalRep (n : Nat) : decToNat (decimalRep n) = n := by
  by_cases h : n = 0
  · subst h; decide
  · unfold decToNat
    rw [decimalRep_eq_digits h, List.foldl_reverse]
    have hform : ∀ (c : Char) (a : Nat),
        (fun (x : Char) (y : Nat) => y * 10 + digitToNat x) c a = a * 10 + digitToNat c :=
      fun _ _ => rfl
    rw [List.foldr_map]
    have := foldr_digits_ofDigits (Nat.digits 10 n)
      (fun d hd => Nat.digits_lt_base (by norm_num) hd)
    rw [this, Nat.ofDigits_digits]

theorem decimalRep_length_le {n w : Nat} (hw : 0 < w) (h : n < 10 ^ w) :
    (decimalRep n).length ≤ w := by
  by_cases h0 : n = 0
  · subst h0; simpa [decimalRep] using hw
  · rw [decimalRep_eq_digits h0]
    simp only [List.length_reverse, List.length_map]
    rw [Nat.digits_len 10 n (by norm_num) h0]
    have := (Nat.lt_pow_iff_log_lt (by norm_num : (1:Nat) < 10) h0).mp h
    omega

theorem decimalRep_all_digits (n : Nat) : ∀ c ∈ decimalRep n, isDigitB c = true := by
  intro c hc
  by_cases h0 : n = 0
  · subst h0
    simp [decimalRep] at hc
    subst hc; decide
  · rw [decimalRep_eq_digits h0, List.mem_reverse] at hc
    rcases List.mem_map.mp hc with ⟨d, hd, rfl⟩
    exact isDigitB_digitChar (Nat.digits_lt_base (by norm_num) hd)

theorem decimalRep_has_nonzero {n : Nat} (h : 0 < n) :
    ∃ c ∈ decimalRep n, c ≠ '0' := by
  have h0 : n ≠ 0 := Nat.pos_iff_ne_zero.mp h
  have hne : Nat.digits 10 n ≠ [] := Nat.digits_ne_nil_iff_ne_zero.mpr h0
  refine ⟨digitChar ((Nat.digits 10 n).getLast hne), ?_, ?_⟩
  · rw [decimalRep_eq_digits h0, List.mem_reverse]
    exact List.mem_map_of_mem _ (List.getLast_mem hne)
  · have hlast := Nat.getLast_digit_ne_zero 10 h0
    have hlt : (Nat.digits 10 n).getLast hne < 10 :=
      Nat.digits_lt_base (by norm_num) (List.getLast_mem hne)
    exact digitChar_ne_zero (Nat.pos_of_ne_zero hlast) hlt

theorem isAllZero_padZeros_false {n w : Nat} (h : 0 < n) :
    isAllZero (padZeros w (decimalRep n)) = false := by
  rcases decimalRep_has_nonzero h with ⟨c, hc, hne⟩
  unfold isAllZero padZeros
  rw [List.all_eq_false]
  exact ⟨c, List.mem_append_right _ hc, by simp [hne]⟩

theorem decodeGroup_replicate_zero (w : Nat) :
    decodeGroup (List.replicate w '0') = none := by
  unfold decodeGroup isAllZero
  rw [if_pos]
  rw [List.all_eq_true]
  intro x hx
  rw [List.eq_of_mem_replicate hx]
  decide

theorem decodeGroup_padZeros {v w : Nat} (h : 0 < v) :
    decodeGroup (padZeros w (decimalRep v)) = some v := by
  unfold decodeGroup
  rw [if_neg (by simp [isAllZero_padZeros_false h])]
  rw [decToNat_padZeros, decToNat_decimalRep]

/-!  Well-formedness: the textual invariants that parsing establishes and the
mutation/partition operations preserve, under which serialization round-trips.
The one condition reachable records can violate is `!isPopLine`: a
comma-separated locus-name line may carry a name whose trimmed lowercase form
is `pop`, and such a record does not survive a serialize/reparse cycle. -/

/-- A locus name serializable on its own line: trimmed, comma-free, and not
itself a `Pop` marker. -/
def validLocusNameB (s : String) : Bool :=
  (trimC s.data == s.data) && decide (',' ∉ s.data) && !isPopLine s.data

/-- An individual name serializable before the comma: trimmed and comma-free. -/
def validIndivNameB (s : String) : Bool :=
  (trimC s.data == s.data) && decide (',' ∉ s.data)

/-- An allele representable at width `w`: missing, or positive and below
`10 ^ w` (a zero code would collide with the missing-data group). -/
def validAlleleB (w : Nat) (a : Option Nat) : Bool :=
  match a with
  | none => true
  | some v => decide (0 < v) && decide (v < 10 ^ w)

/-- One individual's well-formedness at width `w` with `nloci` loci. -/
def indivWFB (w nloci : Nat) (ind : Individual) : Bool :=
  validIndivNameB ind.name && (ind.genotypes.length == nloci) &&
    ind.genotypes.all (fun g => validAlleleB w g.1 && validAlleleB w g.2)

/-- Record well-formedness at established width `w`. -/
def WFB (w : Nat) (r : Record) : Bool :=
  (w == 2 || w == 3) && !r.loci_list.isEmpty &&
    r.loci_list.all validLocusNameB && !r.populations.isEmpty &&
    r.populations.all (fun p => p.individuals.all (indivWFB w r.loci_list.length))

/-- The shape invariant: every individual has one genotype per locus. -/
def ShapeInv (r : Record) : Bool :=
  r.populations.all (fun p =>
    p.individuals.all (fun ind => ind.genotypes.length == r.loci_list.length))

/-- The three-population example record of the notebook: populations 0 and 1
are spelled out there; the third population's contents are arbitrary. -/
def exRecord : Record :=
  ⟨"my comment", ["loci1", "another", "and finally"],
   [⟨[⟨"Ind1", [(some 1, some 2), (some 3, some 3), (some 200, some 201)]⟩,
      ⟨"Ind2", [(some 2, none), (some 3, some 3), (none, none)]⟩]⟩,
    ⟨[⟨"Other1", [(some 1, some 1), (some 4, some 3), (some 200, some 200)]⟩]⟩,
    ⟨[⟨"Other2", [(some 5, some 5), (some 4, some 4), (some 199, some 198)]⟩]⟩]⟩

/-!  Codec round-trip at the allele and field level. -/

theorem encodeAllele_ok {w : Nat} {a : Option Nat} (hw : 0 < w)
    (h : validAlleleB w a = true) :
    ∃ g, encodeAllele w a = .ok g ∧ g.length = w ∧
      (∀ c ∈ g, isDigitB c = true) ∧ decodeGroup g = a := by
  rcases a with _ | v
  · refine ⟨List.replicate w '0', rfl, by simp, ?_, decodeGroup_replicate_zero w⟩
    intro c hc
    rw [List.eq_of_mem_replicate hc]
    decide
  · unfold validAlleleB at h
    simp only [Bool.and_eq_true, decide_eq_true_eq] at h
    have hlen : (decimalRep v).length ≤ w := decimalRep_length_le hw h.2
    refine ⟨padZeros w (decimalRep v), ?_, ?_, ?_, decodeGroup_padZeros h.1⟩
    · simp only [encodeAllele]
      rw [if_neg (by omega)]
    · unfold padZeros
      simp only [List.length_append, List.length_replicate]
      omega
    · intro c hc
      unfold padZeros at hc
      rcases List.mem_append.mp hc with hrep | hdec
      · rw [List.eq_of_mem_replicate hrep]; decide
      · exact decimalRep_all_digits v c hdec

theorem encode_field_ok {w : Nat} {p : AllelePair} (hw : 0 < w)
    (h1 : validAlleleB w p.1 = true) (h2 : validAlleleB w p.2 = true) :
    ∃ f, encode_field w p = .ok f ∧ f.length = 2 * w ∧
      (∀ c ∈ f, isDigitB c = true) ∧ decode_field w f = .ok p := by
  rcases encodeAllele_ok hw h1 with ⟨g1, he1, hl1, hd1, hg1⟩
  rcases encodeAllele_ok hw h2 with ⟨g2, he2, hl2, hd2, hg2⟩
  refine ⟨g1 ++ g2, ?_, ?_, ?_, ?_⟩
  · unfold encode_field
    rw [he1, he2]
  · simp only [List.length_append]
    omega
  · intro c hc
    rcases List.mem_append.mp hc with hm | hm
    · exact hd1 c hm
    · exact hd2 c hm
  · unfold decode_field
    rw [if_pos]
    · rw [List.take_left' hl1, List.drop_left' hl1, hg1, hg2]
    · constructor
      · simp only [List.length_append]; omega
      · rw [List.all_eq_true]
        intro c hc
        rcases List.mem_append.mp hc with hm | hm
        · exact hd1 c hm
        · exact hd2 c hm

/-!  Parser/serializer round trip, from fields up to whole files. -/

/-- The width state is either still undetected or the established width. -/
def stOK (w : Nat) (st : Option Nat) : Prop := st = none ∨ st = some w

theorem mk_data (s : String) : String.mk s.data = s := rfl

theorem decodeFieldAuto_ok {w : Nat} {st : Option Nat} {t : List Char} {g : AllelePair}
    (hw : w = 2 ∨ w = 3) (hst : stOK w st) (hlen : t.length = 2 * w)
    (hdec : decode_field w t = .ok g) :
    decodeFieldAuto st t = .ok (some w, g) := by
  have hwidth : widthOf st t.length = .ok w := by
    rcases hst with rfl | rfl
    · rcases hw with rfl | rfl
      · simp [widthOf, detectWidth, hlen]
      · simp [widthOf, detectWidth, hlen]
    · rfl
  unfold decodeFieldAuto
  simp only [hwidth]
  rw [hdec]

theorem fields_roundtrip {w : Nat} (hw : w = 2 ∨ w = 3) (gs : List AllelePair)
    (hv : ∀ g ∈ gs, validAlleleB w g.1 = true ∧ validAlleleB w g.2 = true) :
    ∃ fs, encodeFields w gs = .ok fs ∧ fs.length = gs.length ∧
      (∀ f ∈ fs, f ≠ [] ∧ ∀ c ∈ f, isDigitB c = true) ∧
      ∀ st, stOK w st → ∃ st', decodeFields st fs = .ok (st', gs) ∧ stOK w st' := by
  have hw0 : 0 < w := by rcases hw with rfl | rfl <;> norm_num
  induction gs with
  | nil =>
    exact ⟨[], rfl, rfl, by simp, fun st hst => ⟨st, rfl, hst⟩⟩
  | cons g gs' ih =>
    have hg := hv g (List.mem_cons_self _ _)
    have hrest : ∀ g' ∈ gs', validAlleleB w g'.1 = true ∧ validAlleleB w g'.2 = true :=
      fun g' hg' => hv g' (List.mem_cons_of_mem _ hg')
    rcases encode_field_ok hw0 hg.1 hg.2 with ⟨f, hef, hflen, hfdig, hfdec⟩
    rcases ih hrest with ⟨fs, hefs, hlen, hprops, hdec⟩
    refine ⟨f :: fs, ?_, ?_, ?_, ?_⟩
    · simp only [encodeFields]
      rw [hef, hefs]
    · simp [hlen]
    · intro f' hf'
      rcases List.mem_cons.mp hf' with rfl | hm
      · refine ⟨?_, hfdig⟩
        intro hnil
        rw [hnil] at hflen
        simp at hflen
        omega
      · exact hprops f' hm
    · intro st hst
      have hauto := decodeFieldAuto_ok hw hst hflen hfdec
      rcases hdec (some w) (Or.inr rfl) with ⟨st', hd, hst'⟩
      refine ⟨st', ?_, hst'⟩
      simp only [decodeFields, hauto]
      rw [hd]

theorem indLine_roundtrip {w nloci : Nat} (hw : w = 2 ∨ w = 3) (ind : Individual)
    (hind : indivWFB w nloci ind = true) :
    ∃ l, encodeInd w ind = .ok l ∧ ',' ∈ l ∧
      ∀ st, stOK w st → ∃ st', parseIndLine nloci st l = .ok (st', ind) ∧ stOK w st' := by
  unfold indivWFB at hind
  simp only [Bool.and_eq_true, beq_iff_eq, List.all_eq_true] at hind
  obtain ⟨⟨hname, hcount⟩, hall⟩ := hind
  have hname' : trimC ind.name.data = ind.name.data ∧ ',' ∉ ind.name.data := by
    unfold validIndivNameB at hname
    simpa [Bool.and_eq_true, beq_iff_eq, decide_eq_true_eq] using hname
  have hv : ∀ g ∈ ind.genotypes, validAlleleB w g.1 = true ∧ validAlleleB w g.2 = true := by
    intro g hg
    have := hall g hg
    simpa [Bool.and_eq_true] using this
  rcases fields_roundtrip hw ind.genotypes hv with ⟨fs, hefs, hlen, hprops, hdec⟩
  refine ⟨ind.name.data ++ ' ' :: ',' :: ' ' :: joinSep fs, ?_, ?_, ?_⟩
  · unfold encodeInd
    rw [hefs]
  · exact List.mem_append_right _ (by simp)
  · intro st hst
    rcases hdec st hst with ⟨st', hd, hst'⟩
    refine ⟨st', ?_, hst'⟩
    unfold parseIndLine
    have hsplit : ind.name.data ++ ' ' :: ',' :: ' ' :: joinSep fs =
        (ind.name.data ++ [' ']) ++ ',' :: (' ' :: joinSep fs) := by simp
    have hnc : ',' ∉ ind.name.data ++ [' '] := by
      intro hmem
      rcases List.mem_append.mp hmem with hm | hm
      · exact hname'.2 hm
      · simp at hm
    rw [hsplit, breakFirstComma_append hnc]
    have htoks : wsSplit (' ' :: joinSep fs) = fs := by
      rw [wsSplit_cons_ws (by decide)]
      refine wsSplit_joinSep ?_
      intro t ht
      refine ⟨(hprops t ht).1, ?_⟩
      intro c hc
      exact isDigitB_not_ws ((hprops t ht).2 c hc)
    simp only [htoks]
    rw [if_pos (by rw [hlen, hcount])]
    rw [hd]
    have hn : String.mk (trimC (ind.name.data ++ [' '])) = ind.name := by
      rw [trimC_append_space, hname'.1, mk_data]
    rw [hn]

theorem section_roundtrip {w nloci : Nat} (hw : w = 2 ∨ w = 3) (inds : List Individual)
    (h : ∀ ind ∈ inds, indivWFB w nloci ind = true) :
    ∃ ls, encodeInds w inds = .ok ls ∧ (∀ l ∈ ls, ',' ∈ l) ∧
      ∀ st, stOK w st → ∃ st', parseSection nloci st ls = .ok (st', inds) ∧ stOK w st' := by
  induction inds with
  | nil => exact ⟨[], rfl, by simp, fun st hst => ⟨st, rfl, hst⟩⟩
  | cons ind inds' ih =>
    rcases indLine_roundtrip hw ind (h ind (List.mem_cons_self _ _)) with ⟨l, hel, hcl, hpl⟩
    rcases ih (fun i hi => h i (List.mem_cons_of_mem _ hi)) with ⟨ls, hels, hcls, hpls⟩
    refine ⟨l :: ls, ?_, ?_, ?_⟩
    · simp only [encodeInds]
      rw [hel, hels]
    · intro l' hl'
      rcases List.mem_cons.mp hl' with rfl | hm
      · exact hcl
      · exact hcls l' hm
    · intro st hst
      rcases hpl st hst with ⟨st1, hil, hst1⟩
      rcases hpls st1 hst1 with ⟨st2, hsec, hst2⟩
      refine ⟨st2, ?_, hst2⟩
      have hblank : isBlank l = false := isBlank_eq_false_of_mem hcl (by decide)
      simp only [parseSection, hblank, Bool.false_eq_true, if_false, hil]
      rw [hsec]

theorem pops_roundtrip {w nloci : Nat} (hw : w = 2 ∨ w = 3) (ps : List Population)
    (h : ∀ p ∈ ps, ∀ ind ∈ p.individuals, indivWFB w nloci ind = true) :
    ∃ pls, encodePops w ps = .ok pls ∧
      (ps = [] → pls = []) ∧ (ps ≠ [] → ∃ tail, pls = popMarker :: tail) ∧
      ∀ st, stOK w st → ps ≠ [] →
        ∃ st', parsePops nloci st pls.tail = .ok (st', ps) ∧ stOK w st' := by
  induction ps with
  | nil =>
    exact ⟨[], rfl, fun _ => rfl, fun hne => absurd rfl hne, fun st hst hne => absurd rfl hne⟩
  | cons p ps' ih =>
    rcases section_roundtrip hw p.individuals (h p (List.mem_cons_self _ _)) with
      ⟨ls, hels, hcls, hpls⟩
    rcases ih (fun q hq => h q (List.mem_cons_of_mem _ hq)) with
      ⟨pls', heps, hnil, hcons, hparse⟩
    have hlsnp : ∀ l ∈ ls, (fun l => !isPopLine l) l = true := by
      intro l hl
      simp [isPopLine_eq_false_of_comma (hcls l hl)]
    refine ⟨(popMarker :: ls) ++ pls', ?_, by simp, fun _ => ⟨ls ++ pls', by simp⟩, ?_⟩
    · simp only [encodePops]
      rw [hels, heps]
    · intro st hst _
      have htail : ((popMarker :: ls) ++ pls').tail = ls ++ pls' := by simp
      rw [htail]
      by_cases hne' : ps' = []
      · subst hne'
        have hpls0 : pls' = [] := hnil rfl
        subst hpls0
        rcases hpls st hst with ⟨st1, hsec, hst1⟩
        refine ⟨st1, ?_, hst1⟩
        unfold parsePops
        have htake : (ls ++ ([] : List (List Char))).takeWhile (fun l => !isPopLine l) = ls := by
          rw [List.append_nil]
          exact List.takeWhile_eq_self_iff.mpr hlsnp
        have hdrop : (ls ++ ([] : List (List Char))).dropWhile (fun l => !isPopLine l) = [] := by
          rw [List.append_nil]
          exact List.dropWhile_eq_nil_iff.mpr hlsnp
        simp only [htake, hsec]
        split
        · rfl
        · rename_i heq
          rw [hdrop] at heq
          cases heq
      · rcases hcons hne' with ⟨tail', rfl⟩
        rcases hpls st hst with ⟨st1, hsec, hst1⟩
        rcases hparse st1 hst1 hne' with ⟨st2, hrec, hst2⟩
        refine ⟨st2, ?_, hst2⟩
        unfold parsePops
        have hpm : (fun l => !isPopLine l) popMarker = false := by decide
        have htake : (ls ++ popMarker :: tail').takeWhile (fun l => !isPopLine l) = ls := by
          rw [List.takeWhile_append_of_pos hlsnp]
          rw [List.takeWhile_cons_of_neg (by simp [hpm])]
          simp
        have hdrop : (ls ++ popMarker :: tail').dropWhile (fun l => !isPopLine l) =
            popMarker :: tail' := by
          rw [List.dropWhile_append_of_pos hlsnp]
          rw [List.dropWhile_cons_of_neg (by simp [hpm])]
        have htl : (popMarker :: tail').tail = tail' := rfl
        rw [htl] at hrec
        simp only [htake, hsec]
        split
        · rename_i heq
          rw [hdrop] at heq
          cases heq
        · rename_i heq
          rw [hdrop] at heq
          injection heq with h1 h2
          subst h2
          rw [hrec]

theorem data_mk (l : List Char) : (String.mk l).data = l := rfl

theorem flatten_map_singleton {α : Type} (l : List α) :
    (l.map (fun x => [x])).flatten = l := by
  induction l <;> simp_all

theorem parseLociLine_valid {L : String} (h : validLocusNameB L = true) :
    parseLociLine L.data = [L] := by
  unfold validLocusNameB at h
  simp only [Bool.and_eq_true, beq_iff_eq, decide_eq_true_eq, Bool.not_eq_true'] at h
  unfold parseLociLine
  rw [splitOnComma_no_comma h.1.2]
  simp [h.1.1, mk_data]

theorem serialize_parse_roundtrip {w : Nat} {r : Record} (hwf : WFB w r = true) :
    ∃ lines st, serialize w r = .ok lines ∧ parseFull lines = .ok (st, r) ∧
      stOK w st ∧ parse lines = .ok r := by
  unfold WFB at hwf
  simp only [Bool.and_eq_true, Bool.or_eq_true, beq_iff_eq, Bool.not_eq_true',
    List.isEmpty_eq_false, List.all_eq_true] at hwf
  obtain ⟨⟨⟨⟨hw2, hlne⟩, hlv⟩, hpne⟩, hindv⟩ := hwf
  rcases pops_roundtrip hw2 r.populations hindv with ⟨pls, heps, _, hconsf, hparse⟩
  rcases hconsf hpne with ⟨tail, hplseq⟩
  rcases hparse none (Or.inl rfl) hpne with ⟨st', hpp, hst'⟩
  have hfull : parseFull (r.comment :: (r.loci_list ++ pls.map String.mk)) = .ok (st', r) := by
    unfold parseFull
    have hcls : (r.loci_list ++ pls.map String.mk).map String.data =
        r.loci_list.map String.data ++ pls := by
      rw [List.map_append, List.map_map]
      congr 1
      have : (String.data ∘ String.mk) = id := by
        funext l
        exact data_mk l
      rw [this, List.map_id]
    have hlocinp : ∀ l ∈ r.loci_list.map String.data, (fun l => !isPopLine l) l = true := by
      intro l hl
      rcases List.mem_map.mp hl with ⟨L, hL, rfl⟩
      have := hlv L hL
      unfold validLocusNameB at this
      simp only [Bool.and_eq_true, Bool.not_eq_true'] at this
      simp [this.2]
    have hpm : (fun l => !isPopLine l) popMarker = false := by decide
    have htake : ((r.loci_list ++ pls.map String.mk).map String.data).takeWhile
        (fun l => !isPopLine l) = r.loci_list.map String.data := by
      rw [hcls, List.takeWhile_append_of_pos hlocinp, hplseq]
      rw [List.takeWhile_cons_of_neg (by simp [hpm])]
      simp
    have hdrop : ((r.loci_list ++ pls.map String.mk).map String.data).dropWhile
        (fun l => !isPopLine l) = pls := by
      rw [hcls, List.dropWhile_append_of_pos hlocinp, hplseq]
      rw [List.dropWhile_cons_of_neg (by simp [hpm])]
    have hloci : lociOf (r.loci_list ++ pls.map String.mk) = r.loci_list := by
      unfold lociOf
      rw [htake, List.map_map]
      have hmapeq : r.loci_list.map (parseLociLine ∘ String.data) =
          r.loci_list.map (fun L => [L]) := by
        refine List.map_congr_left ?_
        intro L hL
        exact parseLociLine_valid (hlv L hL)
      rw [hmapeq, flatten_map_singleton]
    have htl : (popMarker :: tail).tail = tail := rfl
    rw [hplseq, htl] at hpp
    have hdrop2 : ((r.loci_list ++ pls.map String.mk).map String.data).dropWhile
        (fun l => !isPopLine l) = popMarker :: tail := hdrop.trans hplseq
    simp only [hdrop2, hloci]
    rw [if_neg (by simp [hlne])]
    rw [hpp]
  refine ⟨r.comment :: (r.loci_list ++ pls.map String.mk), st', ?_, hfull, hst', ?_⟩
  · unfold serialize
    rw [heps]
  · unfold parse
    rw [hfull]
    rfl

/-!  Parsing establishes well-formedness: every record a parse produces is
serializable, except for the locus-name caveat on `Pop`-like names. -/

theorem digitToNat_le_nine {c : Char} (h : isDigitB c = true) : digitToNat c ≤ 9 := by
  unfold isDigitB at h
  simp only [Bool.and_eq_true, decide_eq_true_eq] at h
  unfold digitToNat
  omega

theorem decToNat_lt_aux (g : List Char) (a : Nat) (hdig : ∀ c ∈ g, isDigitB c = true) :
    g.foldl (fun a c => a * 10 + digitToNat c) a < (a + 1) * 10 ^ g.length := by
  induction g generalizing a with
  | nil => simp
  | cons c cs ih =>
    have hc := digitToNat_le_nine (hdig c (List.mem_cons_self _ _))
    have hcs : ∀ d ∈ cs, isDigitB d = true := fun d hd => hdig d (List.mem_cons_of_mem _ hd)
    have := ih (a * 10 + digitToNat c) hcs
    have hstep : (a * 10 + digitToNat c + 1) * 10 ^ cs.length ≤ (a + 1) * 10 ^ (c :: cs).length := by
      simp only [List.length_cons, pow_succ]
      have h1 : a * 10 + digitToNat c + 1 ≤ (a + 1) * 10 := by omega
      calc (a * 10 + digitToNat c + 1) * 10 ^ cs.length
          ≤ ((a + 1) * 10) * 10 ^ cs.length := Nat.mul_le_mul_right _ h1
        _ = (a + 1) * (10 ^ cs.length * 10) := by ring
    calc List.foldl (fun a c => a * 10 + digitToNat c) (a * 10 + digitToNat c) cs
        < (a * 10 + digitToNat c + 1) * 10 ^ cs.length := this
      _ ≤ (a + 1) * 10 ^ (c :: cs).length := hstep

theorem decToNat_lt {g : List Char} (hdig : ∀ c ∈ g, isDigitB c = true) :
    decToNat g < 10 ^ g.length := by
  have := decToNat_lt_aux g 0 hdig
  simpa [decToNat] using this

theorem digitToNat_pos {c : Char} (hdig : isDigitB c = true) (hne : c ≠ '0') :
    0 < digitToNat c := by
  unfold isDigitB at hdig
  simp only [Bool.and_eq_true, decide_eq_true_eq] at hdig
  have h48 : c.toNat ≠ 48 := by
    intro h
    apply hne
    apply Char.ext
    apply UInt32.toNat.inj
    exact h
  unfold digitToNat
  omega

theorem decToNat_pos_aux (g : List Char) (a : Nat) (ha : 0 < a) :
    0 < g.foldl (fun a c => a * 10 + digitToNat c) a := by
  induction g generalizing a with
  | nil => simpa
  | cons c cs ih =>
    exact ih (a * 10 + digitToNat c) (by omega)

theorem decToNat_pos {g : List Char} (hdig : ∀ c ∈ g, isDigitB c = true)
    (hnz : isAllZero g = false) : 0 < decToNat g := by
  unfold isAllZero at hnz
  rcases List.all_eq_false.mp hnz with ⟨c, hc, hcne⟩
  have hcne' : c ≠ '0' := by simpa using hcne
  rcases List.append_of_mem hc with ⟨pre, post, rfl⟩
  unfold decToNat
  rw [List.foldl_append, List.foldl_cons]
  apply decToNat_pos_aux
  have := digitToNat_pos (hdig c (by simp)) hcne'
  omega

theorem decodeGroup_valid {w : Nat} {g : List Char} (hlen : g.length = w)
    (hdig : ∀ c ∈ g, isDigitB c = true) : validAlleleB w (decodeGroup g) = true := by
  unfold decodeGroup
  by_cases hz : isAllZero g
  · rw [if_pos hz]
    rfl
  · rw [if_neg hz]
    unfold validAlleleB
    have h1 := decToNat_pos hdig (Bool.of_not_eq_true hz)
    have h2 := decToNat_lt hdig
    rw [hlen] at h2
    simp [h1, h2]

theorem decode_field_wf {w : Nat} {raw : List Char} {g : AllelePair}
    (h : decode_field w raw = .ok g) :
    raw.length = 2 * w ∧ validAlleleB w g.1 = true ∧ validAlleleB w g.2 = true := by
  unfold decode_field at h
  by_cases hc : raw.length = 2 * w ∧ raw.all isDigitB = true
  · rw [if_pos hc] at h
    injection h with h
    subst h
    have hdig : ∀ c ∈ raw, isDigitB c = true := List.all_eq_true.mp hc.2
    refine ⟨hc.1, ?_, ?_⟩
    · refine decodeGroup_valid ?_ ?_
      · simp only [List.length_take]
        omega
      · intro c hcm
        exact hdig c (List.mem_of_mem_take hcm)
    · refine decodeGroup_valid ?_ ?_
      · simp only [List.length_drop]
        omega
      · intro c hcm
        exact hdig c (List.mem_of_mem_drop hcm)
  · rw [if_neg hc] at h
    cases h

theorem detectWidth_wf {len w : Nat} (h : detectWidth len = .ok w) :
    (w = 3 ∧ len = 6) ∨ (w = 2 ∧ len = 4) := by
  unfold detectWidth at h
  by_cases h6 : len = 6
  · rw [if_pos h6] at h
    injection h with h
    exact Or.inl ⟨h.symm, h6⟩
  · rw [if_neg h6] at h
    by_cases h4 : len = 4
    · rw [if_pos h4] at h
      injection h with h
      exact Or.inr ⟨h.symm, h4⟩
    · rw [if_neg h4] at h
      cases h

theorem decodeFieldAuto_wf {st st2 : Option Nat} {t : List Char} {g : AllelePair}
    (h : decodeFieldAuto st t = .ok (st2, g)) :
    ∃ w, st2 = some w ∧ (st = some w ∨ (st = none ∧ (w = 2 ∨ w = 3))) ∧
      validAlleleB w g.1 = true ∧ validAlleleB w g.2 = true := by
  unfold decodeFieldAuto at h
  split at h
  · cases h
  · rename_i w hwo
    split at h
    · cases h
    · rename_i g' hdf
      injection h with h
      injection h with h1 h2
      subst h1
      subst h2
      rcases decode_field_wf hdf with ⟨_, hv1, hv2⟩
      refine ⟨w, rfl, ?_, hv1, hv2⟩
      unfold widthOf at hwo
      rcases st with _ | w'
      · rcases detectWidth_wf hwo with ⟨rfl, _⟩ | ⟨rfl, _⟩
        · exact Or.inr ⟨rfl, Or.inr rfl⟩
        · exact Or.inr ⟨rfl, Or.inl rfl⟩
      · injection hwo with hwo
        subst hwo
        exact Or.inl rfl

theorem decodeFields_wf {st st2 : Option Nat} {ts : List (List Char)} {gs : List AllelePair}
    (h : decodeFields st ts = .ok (st2, gs)) :
    gs.length = ts.length ∧
    (∀ w, st = some w → st2 = some w) ∧
    (st2 = none → st = none ∧ ts = []) ∧
    (∀ w, st2 = some w → (st = some w ∨ (st = none ∧ (w = 2 ∨ w = 3)))) ∧
    (∀ w, st2 = some w → ∀ g ∈ gs, validAlleleB w g.1 = true ∧ validAlleleB w g.2 = true) := by
  induction ts generalizing st gs with
  | nil =>
    unfold decodeFields at h
    injection h with h
    injection h with h1 h2
    subst h1
    subst h2
    refine ⟨rfl, fun w hw => hw, fun h2 => ⟨h2, rfl⟩, fun w hw => Or.inl hw, ?_⟩
    intro w _ g hg
    cases hg
  | cons t ts' ih =>
    unfold decodeFields at h
    split at h
    · cases h
    · rename_i st1 g hauto
      split at h
      · cases h
      · rename_i st2' gs' hrest
        injection h with h
        injection h with h1 h2
        subst h1
        subst h2
        rcases decodeFieldAuto_wf hauto with ⟨w1, hst1, hor, hv1, hv2⟩
        rcases ih hrest with ⟨hlen, hprop, hnone, hsrc, hvalid⟩
        have hfin : st2' = some w1 := hprop w1 hst1
        refine ⟨by simp [hlen], ?_, ?_, ?_, ?_⟩
        · intro w hw
          rcases hor with hsw | ⟨hnil, _⟩
          · rw [hw] at hsw
            injection hsw with hsw
            subst hsw
            exact hprop w hst1
          · rw [hw] at hnil
            cases hnil
        · intro h2
          rw [h2] at hfin
          cases hfin
        · intro w hw
          rw [hw] at hfin
          injection hfin with hfin
          subst hfin
          exact hor
        · intro w hw g'' hg''
          rw [hw] at hfin
          injection hfin with hfin
          subst hfin
          rcases List.mem_cons.mp hg'' with rfl | hm
          · exact ⟨hv1, hv2⟩
          · exact hvalid w hw g'' hm

theorem parseIndLine_wf {nloci : Nat} {st st2 : Option Nat} {l : List Char} {ind : Individual}
    (hn : 0 < nloci) (h : parseIndLine nloci st l = .ok (st2, ind)) :
    validIndivNameB ind.name = true ∧ ind.genotypes.length = nloci ∧
    (∃ w, st2 = some w ∧ (st = some w ∨ (st = none ∧ (w = 2 ∨ w = 3)))) ∧
    (∀ w, st2 = some w →
      ∀ g ∈ ind.genotypes, validAlleleB w g.1 = true ∧ validAlleleB w g.2 = true) := by
  unfold parseIndLine at h
  split at h
  · cases h
  · rename_i before after hbreak
    split at h
    · rename_i hlen
      split at h
      · cases h
      · rename_i st' gts hdec
        injection h with h
        injection h with h1 h2
        subst h1
        subst h2
        rcases decodeFields_wf hdec with ⟨hglen, _, hnone, hsrc, hvalid⟩
        have hname : validIndivNameB (String.mk (trimC before)) = true := by
          unfold validIndivNameB
          rw [data_mk, trimC_idem]
          simp only [beq_self_eq_true, Bool.true_and]
          rw [decide_eq_true_eq]
          intro hmem
          exact breakFirstComma_before hbreak (trimC_subset hmem)
        have hlen' : gts.length = nloci := by rw [hglen, hlen]
        refine ⟨hname, hlen', ?_, fun w hw g hg => hvalid w hw g hg⟩
        rcases hst2 : st' with _ | w
        · rcases hnone hst2 with ⟨_, hts⟩
          rw [hts] at hlen
          simp at hlen
          omega
        · exact ⟨w, rfl, hsrc w hst2⟩
    · cases h

theorem parseSection_wf {nloci : Nat} {st st2 : Option Nat} {ls : List (List Char)}
    {inds : List Individual} (hn : 0 < nloci) (h : parseSection nloci st ls = .ok (st2, inds)) :
    (∀ w, st = some w → st2 = some w) ∧
    (st2 = none → st = none ∧ inds = []) ∧
    (∀ w, st2 = some w → (st = some w ∨ (st = none ∧ (w = 2 ∨ w = 3)))) ∧
    (∀ w, st2 = some w → ∀ ind ∈ inds, indivWFB w nloci ind = true) := by
  induction ls generalizing st inds with
  | nil =>
    unfold parseSection at h
    injection h with h
    injection h with h1 h2
    subst h1
    subst h2
    refine ⟨fun w hw => hw, fun h2 => ⟨h2, rfl⟩, fun w hw => Or.inl hw, ?_⟩
    intro w _ ind hind
    cases hind
  | cons l ls' ih =>
    unfold parseSection at h
    split at h
    · exact ih h
    · split at h
      · cases h
      · rename_i st1 ind hil
        split at h
        · cases h
        · rename_i st2' inds' hsec
          injection h with h
          injection h with h1 h2
          subst h1
          subst h2
          rcases parseIndLine_wf hn hil with ⟨hname, hglen, ⟨w1, hst1, hor⟩, hvalid⟩
          rcases ih hsec with ⟨hprop, hnone, hsrc, hindv⟩
          have hfin : st2' = some w1 := hprop w1 hst1
          refine ⟨?_, ?_, ?_, ?_⟩
          · intro w hw
            rcases hor with hsw | ⟨hnil, _⟩
            · rw [hw] at hsw
              injection hsw with hsw
              subst hsw
              exact hprop w hst1
            · rw [hw] at hnil
              cases hnil
          · intro h2
            rw [h2] at hfin
            cases hfin
          · intro w hw
            rw [hw] at hfin
            injection hfin with hfin
            subst hfin
            exact hor
          · intro w hw ind' hind'
            rw [hw] at hfin
            injection hfin with hfin
            subst hfin
            rcases List.mem_cons.mp hind' with rfl | hm
            · unfold indivWFB
              simp only [Bool.and_eq_true, beq_iff_eq, List.all_eq_true]
              refine ⟨⟨hname, hglen⟩, ?_⟩
              intro g hg
              rcases hvalid w hst1 g hg with ⟨hv1, hv2⟩
              simp [hv1, hv2]
            · exact hindv w hw ind' hm

theorem parsePops_wf {nloci : Nat} (hn : 0 < nloci) :
    ∀ n (ls : List (List Char)), ls.length ≤ n → ∀ {st st2 : Option Nat} {pops : List Population},
      parsePops nloci st ls = .ok (st2, pops) →
      pops ≠ [] ∧
      (∀ w, st = some w → st2 = some w) ∧
      (st2 = none → st = none ∧ ∀ p ∈ pops, p.individuals = []) ∧
      (∀ w, st2 = some w → (st = some w ∨ (st = none ∧ (w = 2 ∨ w = 3)))) ∧
      (∀ w, st2 = some w → ∀ p ∈ pops, ∀ ind ∈ p.individuals, indivWFB w nloci ind = true) := by
  intro n
  induction n with
  | zero =>
    intro ls hlen st st2 pops h
    have hnil : ls = [] := by
      cases ls with
      | nil => rfl
      | cons a as => simp at hlen
    subst hnil
    unfold parsePops at h
    simp only [List.takeWhile_nil, List.dropWhile_nil] at h
    have hsec0 : parseSection nloci st ([] : List (List Char)) = .ok (st, []) := rfl
    rw [hsec0] at h
    injection h with h
    injection h with h1 h2
    subst h1
    subst h2
    refine ⟨by simp, fun w hw => hw, fun h2 => ⟨h2, by intro p hp; simp at hp; subst hp; rfl⟩,
      fun w hw => Or.inl hw, ?_⟩
    intro w _ p hp ind hind
    simp at hp
    subst hp
    cases hind
  | succ n ihn =>
    intro ls hlen st st2 pops h
    unfold parsePops at h
    split at h
    · cases h
    · rename_i st1 inds hsec
      rcases parseSection_wf hn hsec with ⟨hprop1, hnone1, hsrc1, hindv1⟩
      split at h
      · rename_i hdrop
        injection h with h
        injection h with h1 h2
        subst h1
        subst h2
        refine ⟨by simp, hprop1, ?_, hsrc1, ?_⟩
        · intro h2
          rcases hnone1 h2 with ⟨hst, hinds⟩
          refine ⟨hst, ?_⟩
          intro p hp
          simp at hp
          subst hp
          exact hinds
        · intro w hw p hp ind hind
          simp at hp
          subst hp
          exact hindv1 w hw ind hind
      · rename_i head rest' hdrop
        split at h
        · cases h
        · rename_i st2' pops' hrec
          injection h with h
          injection h with h1 h2
          subst h1
          subst h2
          have hrest : rest'.length ≤ n := by
            have h1 := length_dropWhile_le' (fun l => !isPopLine l) ls
            rw [hdrop] at h1
            simp at h1
            omega
          rcases ihn rest' hrest hrec with ⟨hne', hprop2, hnone2, hsrc2, hindv2⟩
          refine ⟨by simp, ?_, ?_, ?_, ?_⟩
          · intro w hw
            exact hprop2 w (hprop1 w hw)
          · intro h2
            rcases hnone2 h2 with ⟨hst1, hpe⟩
            rcases hnone1 hst1 with ⟨hst, hinds⟩
            refine ⟨hst, ?_⟩
            intro p hp
            rcases List.mem_cons.mp hp with rfl | hm
            · exact hinds
            · exact hpe p hm
          · intro w hw
            rcases hsrc2 w hw with hst1 | ⟨hst1, hw23⟩
            · exact hsrc1 w hst1
            · rcases hnone1 hst1 with ⟨hst, _⟩
              exact Or.inr ⟨hst, hw23⟩
          · intro w hw p hp ind hind
            rcases List.mem_cons.mp hp with rfl | hm
            · rcases hsrc2 w hw with hst1 | ⟨hst1, _⟩
              · exact hindv1 w hst1 ind hind
              · rcases hnone1 hst1 with ⟨_, hinds⟩
                rw [hinds] at hind
                cases hind
            · exact hindv2 w hw p hm ind hind

theorem splitOnComma_pieces {l : List Char} : ∀ p ∈ splitOnComma l, ',' ∉ p := by
  induction l with
  | nil =>
    intro p hp
    simp [splitOnComma] at hp
    subst hp
    simp
  | cons c cs ih =>
    intro p hp
    unfold splitOnComma at hp
    by_cases hc : c = ','
    · rw [if_pos hc] at hp
      rcases List.mem_cons.mp hp with rfl | hm
      · simp
      · exact ih p hm
    · rw [if_neg hc] at hp
      rcases hsp : splitOnComma cs with _ | ⟨t, ts⟩
      · rw [hsp] at hp
        simp at hp
        subst hp
        simpa using Ne.symm hc
      · rw [hsp] at hp
        rcases List.mem_cons.mp hp with rfl | hm
        · intro hmem
          rcases List.mem_cons.mp hmem with h1 | h1
          · exact hc h1.symm
          · exact ih t (by rw [hsp]; exact List.mem_cons_self _ _) h1
        · exact ih p (by rw [hsp]; exact List.mem_cons_of_mem _ hm)

theorem lociOf_names_wf {rest : List String} {L : String} (hL : L ∈ lociOf rest) :
    trimC L.data = L.data ∧ ',' ∉ L.data := by
  unfold lociOf at hL
  rcases List.mem_flatten.mp hL with ⟨names, hnames, hmem⟩
  rcases List.mem_map.mp hnames with ⟨line, _, rfl⟩
  unfold parseLociLine at hmem
  rcases List.mem_map.mp hmem with ⟨p, hp, rfl⟩
  rw [data_mk]
  exact ⟨trimC_idem p, fun hmem' => splitOnComma_pieces p hp (trimC_subset hmem')⟩

theorem WFB_intro {w : Nat} {r : Record} (hw : w = 2 ∨ w = 3) (h1 : r.loci_list ≠ [])
    (h2 : ∀ L ∈ r.loci_list, validLocusNameB L = true) (h3 : r.populations ≠ [])
    (h4 : ∀ p ∈ r.populations, ∀ ind ∈ p.individuals,
      indivWFB w r.loci_list.length ind = true) : WFB w r = true := by
  unfold WFB
  simp only [Bool.and_eq_true, Bool.or_eq_true, beq_iff_eq, Bool.not_eq_true',
    List.isEmpty_eq_false, List.all_eq_true]
  exact ⟨⟨⟨⟨hw, h1⟩, h2⟩, h3⟩, h4⟩

theorem parseFull_wf {lines : List String} {st : Option Nat} {r : Record}
    (h : parseFull lines = .ok (st, r))
    (hpop : ∀ L ∈ r.loci_list, isPopLine L.data = false) :
    ∃ w, (w = 2 ∨ w = 3) ∧ stOK w st ∧ WFB w r = true := by
  unfold parseFull at h
  split at h
  · cases h
  · rename_i comment rest
    split at h
    · cases h
    · rename_i head sections hdrop
      split at h
      · cases h
      · rename_i hne
        split at h
        · cases h
        · rename_i st0 pops hrec
          injection h with h
          injection h with h1 h2
          subst h1
          have hrform : r = ⟨comment, lociOf rest, pops⟩ := h2.symm
          have hlne : lociOf rest ≠ [] := by
            intro hx
            rw [hx] at hne
            simp at hne
          have hn : 0 < (lociOf rest).length := by
            cases hl : lociOf rest with
            | nil => exact absurd hl hlne
            | cons a as => simp
          rcases parsePops_wf hn sections.length sections le_rfl hrec with
            ⟨hpne, _, hnone, hsrc, hvalid⟩
          have hnames : ∀ L ∈ r.loci_list, validLocusNameB L = true := by
            intro L hL
            have hL' : L ∈ lociOf rest := by
              rw [hrform] at hL
              exact hL
            rcases lociOf_names_wf hL' with ⟨ht, hc⟩
            unfold validLocusNameB
            rw [ht]
            simp only [beq_self_eq_true, Bool.true_and, Bool.and_eq_true, decide_eq_true_eq,
              Bool.not_eq_true']
            exact ⟨hc, hpop L hL⟩
          have hlocieq : r.loci_list = lociOf rest := by rw [hrform]
          have hpopeq : r.populations = pops := by rw [hrform]
          rcases hst0 : st0 with _ | w
          · refine ⟨3, Or.inr rfl, Or.inl rfl, ?_⟩
            refine WFB_intro (Or.inr rfl) (by rw [hlocieq]; exact hlne) hnames
              (by rw [hpopeq]; exact hpne) ?_
            intro p hp ind hind
            rcases hnone hst0 with ⟨_, hempty⟩
            rw [hpopeq] at hp
            rw [hempty p hp] at hind
            cases hind
          · have hw23 : w = 2 ∨ w = 3 := by
              rcases hsrc w hst0 with hcontra | ⟨_, hw23⟩
              · cases hcontra
              · exact hw23
            refine ⟨w, hw23, Or.inr rfl, ?_⟩
            refine WFB_intro hw23 (by rw [hlocieq]; exact hlne) hnames
              (by rw [hpopeq]; exact hpne) ?_
            intro p hp ind hind
            rw [hpopeq] at hp
            have := hvalid w hst0 p hp ind hind
            rw [hlocieq]
            exact this

/-!  Association-map facts for the partition operations. -/

theorem upsert_fresh {m : List (String × Record)} {k : String} {v : Record}
    (h : ∀ e ∈ m, e.1 ≠ k) : upsert m k v = m ++ [(k, v)] := by
  induction m with
  | nil => rfl
  | cons e m' ih =>
    have he : e.1 ≠ k := h e (List.mem_cons_self _ _)
    unfold upsert
    rw [if_neg he]
    rw [ih (fun e' he' => h e' (List.mem_cons_of_mem _ he'))]
    rfl

theorem foldl_upsert_fresh : ∀ (es m : List (String × Record)),
    (∀ e ∈ es, ∀ e' ∈ m, e'.1 ≠ e.1) → (es.map Prod.fst).Nodup →
    es.foldl (fun m e => upsert m e.1 e.2) m = m ++ es := by
  intro es
  induction es with
  | nil =>
    intro m _ _
    simp
  | cons e es' ih =>
    intro m hfresh hnd
    rw [List.foldl_cons]
    rw [upsert_fresh (fun e' he' => hfresh e (List.mem_cons_self _ _) e' he')]
    rw [List.map_cons, List.nodup_cons] at hnd
    rw [ih (m ++ [e]) ?_ hnd.2]
    · simp
    · intro e2 he2 e' he'
      rcases List.mem_append.mp he' with hm | hsing
      · exact hfresh e2 (List.mem_cons_of_mem _ he2) e' hm
      · simp at hsing
        rw [hsing]
        intro hcontra
        exact hnd.1 (hcontra ▸ List.mem_map_of_mem Prod.fst he2)

/-!  Facts about `eraseIdx`-based removal operations. -/

theorem remove_population_ok {r : Record} {pos : Nat} (h : pos < r.populations.length) :
    remove_population r pos =
      .ok { r with populations := r.populations.eraseIdx pos } := by
  unfold remove_population
  rw [if_pos h]

theorem remove_population_err {r : Record} {pos : Nat} (h : r.populations.length ≤ pos) :
    remove_population r pos = .error .indexOutOfRange := by
  unfold remove_population
  rw [if_neg (by omega)]

theorem map_getD_range {α : Type} (l : List α) (d : α) :
    (List.range l.length).map (fun i => l.getD i d) = l := by
  induction l with
  | nil => rfl
  | cons x xs ih =>
    show (List.range (xs.length + 1)).map (fun i => (x :: xs).getD i d) = x :: xs
    rw [List.range_succ_eq_map, List.map_cons, List.map_map]
    have : ((fun i => (x :: xs).getD i d) ∘ Nat.succ) = (fun i => xs.getD i d) := rfl
    rw [this, ih]
    rfl

theorem enum_map_fst_apply {α β : Type} (l : List α) (g : Nat → β) :
    l.enum.map (fun e => g e.1) = (List.range l.length).map g := by
  rw [List.enum_eq_zip_range]
  have hcomp : (fun (e : Nat × α) => g e.1) = g ∘ Prod.fst := rfl
  rw [hcomp, ← List.map_map]
  rw [List.map_fst_zip _ _ (by simp)]

theorem split_in_loci_eq_entries (self r : Record) (hnd : r.loci_list.Nodup) :
    split_in_loci self r =
      r.loci_list.enum.map (fun e => (e.2, sliceLocus r e.1 e.2)) := by
  unfold split_in_loci
  rw [foldl_upsert_fresh _ [] (by intro e _ e' he'; cases he') ?_]
  · rfl
  · rw [List.map_map]
    have hcomp : (Prod.fst ∘ fun (e : Nat × String) => (e.2, sliceLocus r e.1 e.2)) =
        Prod.snd := rfl
    rw [hcomp]
    rw [show List.map Prod.snd r.loci_list.enum = r.loci_list from
      List.enumFrom_map_snd 0 r.loci_list]
    exact hnd

/-!  Claim theorems. -/

/-- C2: for every Record satisfying the shape invariant and every valid
position, `remove_locus_by_position` succeeds; afterwards the locus list is
one shorter, the shape invariant holds again (every individual's genotype
count equals the new locus-list length and the pre-removal count minus one),
and the `AllelePair` removed from each individual is exactly the one at
index `pos` (the genotypes become `take pos ++ drop (pos+1)`). -/
theorem C2_remove_locus_shape (r : Record) (pos : Nat)
    (hshape : ShapeInv r = true) (hpos : pos < r.loci_list.length) :
    ∃ r', remove_locus_by_position r pos = .ok r' ∧
      r'.loci_list.length = r.loci_list.length - 1 ∧
      ShapeInv r' = true ∧
      r'.populations.length = r.populations.length ∧
      (∀ (pi : Nat) (pop : Population) (ii : Nat) (ind : Individual),
        r.populations[pi]? = some pop → pop.individuals[ii]? = some ind →
        ∃ (pop' : Population) (ind' : Individual),
          r'.populations[pi]? = some pop' ∧ pop'.individuals[ii]? = some ind' ∧
          ind'.name = ind.name ∧
          ind'.genotypes = ind.genotypes.take pos ++ ind.genotypes.drop (pos + 1) ∧
          ind'.genotypes.length = ind.genotypes.length - 1 ∧
          ind'.genotypes.length = r'.loci_list.length) := by
  unfold ShapeInv at hshape
  simp only [List.all_eq_true, beq_iff_eq] at hshape
  have hllen : (removeLocusAt r pos).loci_list.length = r.loci_list.length - 1 := by
    unfold removeLocusAt
    simp only [List.length_eraseIdx]
    rw [if_pos hpos]
  refine ⟨removeLocusAt r pos, ?_, hllen, ?_, ?_, ?_⟩
  · unfold remove_locus_by_position
    rw [if_pos hpos]
  · unfold ShapeInv
    simp only [List.all_eq_true, beq_iff_eq]
    intro p' hp' ind' hind'
    unfold removeLocusAt at hp'
    simp only at hp'
    rcases List.mem_map.mp hp' with ⟨p, hp, rfl⟩
    rcases List.mem_map.mp hind' with ⟨ind, hind, rfl⟩
    have hgl : ind.genotypes.length = r.loci_list.length := hshape p hp ind hind
    show (ind.genotypes.eraseIdx pos).length = (removeLocusAt r pos).loci_list.length
    rw [hllen]
    simp only [List.length_eraseIdx]
    rw [if_pos (by omega), hgl]
  · unfold removeLocusAt
    simp
  · intro pi pop ii ind h1 h2
    have hmemp : pop ∈ r.populations := by
      rcases List.getElem?_eq_some_iff.mp h1 with ⟨hb, heq⟩
      exact heq ▸ List.getElem_mem hb
    have hmemi : ind ∈ pop.individuals := by
      rcases List.getElem?_eq_some_iff.mp h2 with ⟨hb, heq⟩
      exact heq ▸ List.getElem_mem hb
    have hgl : ind.genotypes.length = r.loci_list.length := hshape pop hmemp ind hmemi
    refine ⟨⟨pop.individuals.map (fun i => ⟨i.name, i.genotypes.eraseIdx pos⟩)⟩,
      ⟨ind.name, ind.genotypes.eraseIdx pos⟩, ?_, ?_, rfl, ?_, ?_, ?_⟩
    · unfold removeLocusAt
      simp only [List.getElem?_map, h1]
      rfl
    · simp only [List.getElem?_map, h2]
      rfl
    · exact List.eraseIdx_eq_take_drop_succ ind.genotypes pos
    · simp only [List.length_eraseIdx]
      rw [if_pos (by omega)]
    · rw [hllen]
      simp only [List.length_eraseIdx]
      rw [if_pos (by omega), hgl]

/-- C2 witness at the example record and position 0. -/
theorem C2_remove_locus_shape_witness :
    ShapeInv exRecord = true ∧ 0 < exRecord.loci_list.length ∧
    (∃ r' : Record, remove_locus_by_position exRecord 0 = .ok r' ∧
      r'.loci_list.length = exRecord.loci_list.length - 1 ∧
      ShapeInv r' = true ∧
      r'.populations.length = exRecord.populations.length ∧
      (∀ (pi : Nat) (pop : Population) (ii : Nat) (ind : Individual),
        exRecord.populations[pi]? = some pop →
        pop.individuals[ii]? = some ind →
        ∃ (pop' : Population) (ind' : Individual),
          r'.populations[pi]? = some pop' ∧ pop'.individuals[ii]? = some ind' ∧
          ind'.name = ind.name ∧
          ind'.genotypes = ind.genotypes.take 0 ++ ind.genotypes.drop 1 ∧
          ind'.genotypes.length = ind.genotypes.length - 1 ∧
          ind'.genotypes.length = r'.loci_list.length)) :=
  ⟨by decide, by decide, C2_remove_locus_shape exRecord 0 (by decide) (by decide)⟩

/-- C3: `remove_locus_by_name` on an absent name is a silent no-op that
returns the Record unchanged; on a present name it removes the locus at the
name's (first) index, exactly as `remove_locus_by_position` would. -/
theorem C3_remove_locus_by_name_noop (r : Record) (name : String) :
    (name ∉ r.loci_list → remove_locus_by_name r name = r) ∧
    (name ∈ r.loci_list → ∃ i, r.loci_list.findIdx? (fun n => n == name) = some i ∧
      remove_locus_by_position r i = .ok (remove_locus_by_name r name)) := by
  constructor
  · intro hmem
    unfold remove_locus_by_name
    have hnone : r.loci_list.findIdx? (fun n => n == name) = none := by
      rw [List.findIdx?_eq_none_iff]
      intro x hx
      simp only [beq_eq_false_iff_ne, ne_eq]
      intro heq
      exact hmem (heq ▸ hx)
    rw [hnone]
  · intro hmem
    have hex : ∃ x, x ∈ r.loci_list ∧ (fun n => n == name) x = true :=
      ⟨name, hmem, by simp⟩
    have hi := List.findIdx?_eq_some_of_exists hex
    have hlt : r.loci_list.findIdx (fun n => n == name) < r.loci_list.length :=
      (List.findIdx?_eq_some_iff_findIdx_eq.mp hi).1
    refine ⟨r.loci_list.findIdx (fun n => n == name), hi, ?_⟩
    unfold remove_locus_by_name
    rw [hi]
    unfold remove_locus_by_position
    rw [if_pos hlt]

/-- C3 witness: an absent name leaves the example record unchanged, and a
present name delegates to removal by position. -/
theorem C3_remove_locus_by_name_noop_witness :
    remove_locus_by_name exRecord "does-not-exist" = exRecord ∧
    (∃ i, exRecord.loci_list.findIdx? (fun n => n == "another") = some i ∧
      remove_locus_by_position exRecord i = .ok (remove_locus_by_name exRecord "another")) :=
  ⟨(C3_remove_locus_by_name_noop exRecord "does-not-exist").1 (by decide),
   (C3_remove_locus_by_name_noop exRecord "another").2 (by decide)⟩

/-- C8: `remove_population` removes exactly the population at the given index
(the remaining list is `take pos ++ drop (pos+1)`), fails with
`IndexOutOfRange` on an invalid index, and on the three-population example
record removing population 0 leaves two populations whose first is the former
population 1 containing only `Other1`. -/
theorem C8_remove_population :
    (∀ (r : Record) (pos : Nat), pos < r.populations.length →
      ∃ r', remove_population r pos = .ok r' ∧
        r'.populations = r.populations.take pos ++ r.populations.drop (pos + 1) ∧
        r'.populations.length = r.populations.length - 1) ∧
    (∀ (r : Record) (pos : Nat), r.populations.length ≤ pos →
      remove_population r pos = .error .indexOutOfRange) ∧
    (∃ r', remove_population exRecord 0 = .ok r' ∧ r'.populations.length = 2 ∧
      r'.populations[0]? =
        some ⟨[⟨"Other1", [(some 1, some 1), (some 4, some 3), (some 200, some 200)]⟩]⟩) := by
  refine ⟨?_, ?_, ?_⟩
  · intro r pos h
    refine ⟨_, remove_population_ok h, ?_, ?_⟩
    · exact List.eraseIdx_eq_take_drop_succ r.populations pos
    · simp only [List.length_eraseIdx]
      rw [if_pos h]
  · intro r pos h
    exact remove_population_err h
  · exact ⟨_, remove_population_ok (by decide), by decide, by decide⟩

/-- C8 witness: the general parts applied at the example record, with each
hypothesis discharged concretely. -/
theorem C8_remove_population_witness :
    (∃ r', remove_population exRecord 1 = .ok r' ∧
      r'.populations = exRecord.populations.take 1 ++ exRecord.populations.drop 2 ∧
      r'.populations.length = exRecord.populations.length - 1) ∧
    remove_population exRecord 5 = .error .indexOutOfRange :=
  ⟨C8_remove_population.1 exRecord 1 (by decide),
   C8_remove_population.2.1 exRecord 5 (by decide)⟩

/-- C9: on a valid index, `remove_population` leaves the comment, the locus
list and every other population (same contents, shifted indices) unchanged;
only the addressed population is dropped. -/
theorem C9_remove_population_frame (r : Record) (pos : Nat)
    (h : pos < r.populations.length) :
    ∃ r', remove_population r pos = .ok r' ∧
      r'.comment = r.comment ∧ r'.loci_list = r.loci_list ∧
      (∀ i, i < pos → r'.populations[i]? = r.populations[i]?) ∧
      (∀ i, pos ≤ i → r'.populations[i]? = r.populations[i + 1]?) := by
  refine ⟨_, remove_population_ok h, rfl, rfl, ?_, ?_⟩
  · intro i hi
    exact List.getElem?_eraseIdx_of_lt r.populations pos i hi
  · intro i hi
    exact List.getElem?_eraseIdx_of_ge r.populations pos i hi

/-- C9 witness at the example record and position 1. -/
theorem C9_remove_population_frame_witness :
    ∃ r', remove_population exRecord 1 = .ok r' ∧
      r'.comment = exRecord.comment ∧ r'.loci_list = exRecord.loci_list ∧
      (∀ i, i < 1 → r'.populations[i]? = exRecord.populations[i]?) ∧
      (∀ i, 1 ≤ i → r'.populations[i]? = exRecord.populations[i + 1]?) :=
  C9_remove_population_frame exRecord 1 (by decide)

/-- C4: on a Record with distinct locus names (duplicate names would collapse
by last-write-wins in the name-keyed result), `split_in_loci` yields exactly
one entry per locus in locus order; each value is a Record with that single
locus, the source's comment, and populations/individuals mirrored in order;
reassembling each individual's single-locus genotypes in locus order
reproduces the original genotypes; the source Record is a value the function
never modifies. -/
theorem C4_split_in_loci_partition (self r : Record) (hnd : r.loci_list.Nodup)
    (hshape : ShapeInv r = true) :
    split_in_loci self r =
      r.loci_list.enum.map (fun e => (e.2, sliceLocus r e.1 e.2)) ∧
    (split_in_loci self r).length = r.loci_list.length ∧
    (split_in_loci self r).map Prod.fst = r.loci_list ∧
    (∀ e ∈ split_in_loci self r, e.2.loci_list = [e.1] ∧ e.2.comment = r.comment ∧
      e.2.populations.length = r.populations.length) ∧
    (∀ (pi : Nat) (pop : Population) (ii : Nat) (ind : Individual),
      r.populations[pi]? = some pop → pop.individuals[ii]? = some ind →
      ((split_in_loci self r).map (fun e =>
        ((e.2.populations.getD pi ⟨[]⟩).individuals.getD ii ⟨"", []⟩).genotypes)).flatten =
      ind.genotypes) := by
  unfold ShapeInv at hshape
  simp only [List.all_eq_true, beq_iff_eq] at hshape
  have hent := split_in_loci_eq_entries self r hnd
  refine ⟨hent, ?_, ?_, ?_, ?_⟩
  · rw [hent]
    simp
  · rw [hent, List.map_map]
    have hcomp : (Prod.fst ∘ fun (e : Nat × String) => (e.2, sliceLocus r e.1 e.2)) =
        Prod.snd := rfl
    rw [hcomp]
    exact List.enumFrom_map_snd 0 r.loci_list
  · intro e he
    rw [hent] at he
    rcases List.mem_map.mp he with ⟨ie, _, rfl⟩
    refine ⟨rfl, rfl, ?_⟩
    unfold sliceLocus
    simp
  · intro pi pop ii ind h1 h2
    have hmemp : pop ∈ r.populations := by
      rcases List.getElem?_eq_some_iff.mp h1 with ⟨hb, heq⟩
      exact heq ▸ List.getElem_mem hb
    have hmemi : ind ∈ pop.individuals := by
      rcases List.getElem?_eq_some_iff.mp h2 with ⟨hb, heq⟩
      exact heq ▸ List.getElem_mem hb
    have hgl : ind.genotypes.length = r.loci_list.length := hshape pop hmemp ind hmemi
    rw [hent, List.map_map]
    have hval : ((fun e =>
        ((e.2.populations.getD pi ⟨[]⟩).individuals.getD ii ⟨"", []⟩).genotypes) ∘
          fun (e : Nat × String) => (e.2, sliceLocus r e.1 e.2)) =
        fun (e : Nat × String) => [ind.genotypes.getD e.1 (none, none)] := by
      funext e
      show (((sliceLocus r e.1 e.2).populations.getD pi ⟨[]⟩).individuals.getD ii
        ⟨"", []⟩).genotypes = [ind.genotypes.getD e.1 (none, none)]
      unfold sliceLocus
      simp only [List.getD_eq_getElem?_getD, List.getElem?_map, h1, Option.map_some']
      simp only [Option.getD_some]
      simp only [List.getElem?_map, h2, Option.map_some']
      rfl
    rw [hval]
    have hmapsing : (r.loci_list.enum.map
        (fun (e : Nat × String) => [ind.genotypes.getD e.1 (none, none)])) =
        (r.loci_list.enum.map
          (fun (e : Nat × String) => ind.genotypes.getD e.1 (none, none))).map
            (fun x => [x]) := by
      rw [List.map_map]
      rfl
    rw [hmapsing, flatten_map_singleton]
    rw [enum_map_fst_apply r.loci_list (fun i => ind.genotypes.getD i (none, none))]
    rw [← hgl]
    exact map_getD_range ind.genotypes (none, none)

/-- C4 witness at the example record. -/
theorem C4_split_in_loci_partition_witness :
    exRecord.loci_list.Nodup ∧
    (split_in_loci exRecord exRecord).length = exRecord.loci_list.length ∧
    (split_in_loci exRecord exRecord).map Prod.fst = exRecord.loci_list :=
  ⟨by decide,
   (C4_split_in_loci_partition exRecord exRecord (by decide) (by decide)).2.1,
   (C4_split_in_loci_partition exRecord exRecord (by decide) (by decide)).2.2.1⟩

/-- C5: `split_in_pops` fails with `ArityMismatch` exactly when the name
list's length differs from the population count (in particular when it is one
too short or one too long); on success (with distinct names, duplicate names
being last-write-wins in the name-keyed result) it returns one
single-population Record per population, keyed by the corresponding name; the
source Record is a value the function never modifies. -/
theorem C5_split_in_pops_arity (r : Record) (names : List String) :
    (split_in_pops r names = .error .arityMismatch ↔
      names.length ≠ r.populations.length) ∧
    (names.length = r.populations.length → names.Nodup →
      split_in_pops r names = .ok ((names.zip r.populations).map
        (fun e => (e.1, Record.mk r.comment r.loci_list [e.2])))) := by
  constructor
  · constructor
    · intro h heq
      unfold split_in_pops at h
      rw [if_pos heq] at h
      cases h
    · intro hne
      unfold split_in_pops
      rw [if_neg hne]
  · intro heq hnd
    unfold split_in_pops
    rw [if_pos heq]
    rw [foldl_upsert_fresh _ [] (by intro e _ e' he'; cases he') ?_]
    · simp
    · rw [List.map_map]
      have hcomp : (Prod.fst ∘ fun (e : String × Population) =>
          (e.1, Record.mk r.comment r.loci_list [e.2])) = Prod.fst := rfl
      rw [hcomp]
      rw [List.map_fst_zip _ _ (le_of_eq heq)]
      exact hnd

/-- C5 witness: one name too few and one too many both fail, and the exact
arity succeeds with one entry per population. -/
theorem C5_split_in_pops_arity_witness :
    split_in_pops exRecord ["p1", "p2"] = .error .arityMismatch ∧
    split_in_pops exRecord ["p1", "p2", "p3", "p4"] = .error .arityMismatch ∧
    split_in_pops exRecord ["p1", "p2", "p3"] =
      .ok ((["p1", "p2", "p3"].zip exRecord.populations).map
        (fun e => (e.1, Record.mk exRecord.comment exRecord.loci_list [e.2]))) :=
  ⟨(C5_split_in_pops_arity exRecord ["p1", "p2"]).1.mpr (by decide),
   (C5_split_in_pops_arity exRecord ["p1", "p2", "p3", "p4"]).1.mpr (by decide),
   (C5_split_in_pops_arity exRecord ["p1", "p2", "p3"]).2 (by decide) (by decide)⟩

/-- C6 counterexample: the claim as stated fails at the pair `(some 0, none)`
with width 2: the decimal representation of 0 fits in 2 digits, yet encoding
produces the all-zero field, which decodes back to a fully missing pair, not
to the original pair. -/
theorem C6_codec_counterexample :
    (decimalRep 0).length ≤ 2 ∧
    encode_field 2 (some 0, none) = .ok ['0', '0', '0', '0'] ∧
    decode_field 2 ['0', '0', '0', '0'] = .ok ((none, none) : AllelePair) ∧
    ((none, none) : AllelePair) ≠ ((some 0, none) : AllelePair) := by
  refine ⟨by decide, by decide, by decide, by decide⟩

/-- C6 (amended): for widths 2 and 3, encode/decode of a genotype field is a
round trip for every pair whose present alleles are positive and fit in the
width (zero cannot round-trip, colliding with the missing marker); a missing
allele is encoded as the all-zero group and the all-zero group decodes to
missing; and encoding fails, always with `AlleleOverflow`, exactly when some
present allele's decimal representation exceeds the width. -/
theorem C6_codec_roundtrip :
    (∀ (w : Nat) (p : AllelePair), (w = 2 ∨ w = 3) →
      validAlleleB w p.1 = true → validAlleleB w p.2 = true →
      ∃ f, encode_field w p = .ok f ∧ decode_field w f = .ok p) ∧
    (∀ w : Nat, encodeAllele w none = .ok (List.replicate w '0')) ∧
    (∀ w : Nat, decodeGroup (List.replicate w '0') = none) ∧
    (∀ (w : Nat) (p : AllelePair), encode_field w p = .error .alleleOverflow ↔
      ((∃ v, p.1 = some v ∧ w < (decimalRep v).length) ∨
       (∃ v, p.2 = some v ∧ w < (decimalRep v).length))) := by
  refine ⟨?_, fun w => rfl, decodeGroup_replicate_zero, ?_⟩
  · intro w p hw h1 h2
    have hw0 : 0 < w := by rcases hw with rfl | rfl <;> norm_num
    rcases encode_field_ok hw0 h1 h2 with ⟨f, hef, _, _, hdf⟩
    exact ⟨f, hef, hdf⟩
  · intro w p
    unfold encode_field
    rcases p with ⟨a, b⟩
    constructor
    · intro h
      rcases ha : encodeAllele w a with e | ga
      · rcases a with _ | v
        · cases ha
        · simp only [encodeAllele] at ha
          by_cases hov : w < (decimalRep v).length
          · exact Or.inl ⟨v, rfl, hov⟩
          · rw [if_neg hov] at ha
            cases ha
      · rw [ha] at h
        rcases hb : encodeAllele w b with e | gb
        · rcases b with _ | v
          · cases hb
          · simp only [encodeAllele] at hb
            by_cases hov : w < (decimalRep v).length
            · exact Or.inr ⟨v, rfl, hov⟩
            · rw [if_neg hov] at hb
              cases hb
        · rw [hb] at h
          cases h
    · intro h
      rcases h with ⟨v, hv, hov⟩ | ⟨v, hv, hov⟩
      · simp only at hv
        subst hv
        have : encodeAllele w (some v) = .error .alleleOverflow := by
          simp only [encodeAllele]
          rw [if_pos hov]
        rw [this]
      · simp only at hv
        subst hv
        rcases ha : encodeAllele w a with e | ga
        · rcases a with _ | v'
          · cases ha
          · simp only [encodeAllele] at ha
            by_cases hov' : w < (decimalRep v').length
            · rw [if_pos hov'] at ha
              injection ha with ha
              rw [← ha]
            · rw [if_neg hov'] at ha
              cases ha
        · have : encodeAllele w (some v) = .error .alleleOverflow := by
            simp only [encodeAllele]
            rw [if_pos hov]
          rw [this]

/-- C6 witness: the amended round trip at width 2 and the pair `(1, missing)`. -/
theorem C6_codec_roundtrip_witness :
    ∃ f, encode_field 2 ((some 1, none) : AllelePair) = .ok f ∧
      decode_field 2 f = .ok ((some 1, none) : AllelePair) :=
  C6_codec_roundtrip.1 2 (some 1, none) (Or.inl rfl) (by decide) (by decide)

/-- C7: the genotype width is fixed once, from the first field's digit-run
length: length 6 gives width 3, length 4 gives width 2 (any other first
length is `MalformedGenotype`; the grammar makes 6 and 4 mutually exclusive,
so the stated preference for 3 is respected); once a width is established it
never changes, and a later field whose length disagrees with `2 * width`
fails with `MalformedGenotype`. -/
theorem C7_width_detection :
    detectWidth 6 = .ok 3 ∧ detectWidth 4 = .ok 2 ∧
    (∀ n : Nat, n ≠ 6 → n ≠ 4 → detectWidth n = .error .malformedGenotype) ∧
    (∀ (w : Nat) (t : List Char) (res : Option Nat × AllelePair),
      decodeFieldAuto (some w) t = .ok res → res.1 = some w) ∧
    (∀ (t : List Char) (res : Option Nat × AllelePair),
      decodeFieldAuto none t = .ok res →
      (t.length = 6 ∧ res.1 = some 3) ∨ (t.length = 4 ∧ res.1 = some 2)) ∧
    (∀ (w : Nat) (t : List Char), t.length ≠ 2 * w →
      decodeFieldAuto (some w) t = .error .malformedGenotype) := by
  refine ⟨rfl, rfl, ?_, ?_, ?_, ?_⟩
  · intro n h6 h4
    unfold detectWidth
    rw [if_neg h6, if_neg h4]
  · intro w t res h
    rcases decodeFieldAuto_wf h with ⟨w', hres, hor, _, _⟩
    rcases hor with hsw | ⟨hnil, _⟩
    · injection hsw with hsw
      rw [hres, hsw]
    · cases hnil
  · intro t res h
    unfold decodeFieldAuto widthOf at h
    split at h
    · cases h
    · rename_i w hdw
      rcases detectWidth_wf hdw with ⟨rfl, hlen⟩ | ⟨rfl, hlen⟩
      · split at h
        · cases h
        · injection h with h
          subst h
          exact Or.inl ⟨hlen, rfl⟩
      · split at h
        · cases h
        · injection h with h
          subst h
          exact Or.inr ⟨hlen, rfl⟩
  · intro w t hlen
    unfold decodeFieldAuto widthOf
    simp only []
    have hdf : decode_field w t = .error .malformedGenotype := by
      unfold decode_field
      rw [if_neg (by intro hc; exact hlen hc.1)]
    rw [hdf]

/-- C7 witness: concrete instances of each conditional part. -/
theorem C7_width_detection_witness :
    detectWidth 5 = .error .malformedGenotype ∧
    decodeFieldAuto (some 2) ['0', '1', '0', '1', '0', '1'] =
      .error .malformedGenotype := by
  refine ⟨C7_width_detection.2.2.1 5 (by decide) (by decide), ?_⟩
  exact C7_width_detection.2.2.2.2.2 2 ['0', '1', '0', '1', '0', '1'] (by decide)

/-- A parse-reachable record with a locus literally named `pop`, obtained
from a comma-separated locus-name line. -/
def popLocusRecord : Record :=
  ⟨"c", ["pop", "b"], [⟨[⟨"i", [(some 1, some 1), (some 2, some 2)]⟩]⟩]⟩

/-- C1 counterexample: a record reachable by parsing (its locus line
`pop, b` names a locus `pop`) serializes successfully, but the canonical
one-name-per-line output turns that locus name into a `Pop` marker, so the
reparse fails with `EmptyLociList` instead of returning the record. -/
theorem C1_roundtrip_counterexample :
    parse ["c", "pop, b", "Pop", "i , 0101 0202"] = .ok popLocusRecord ∧
    serialize 2 popLocusRecord = .ok ["c", "pop", "b", "Pop", "i , 0101 0202"] ∧
    parse ["c", "pop", "b", "Pop", "i , 0101 0202"] = .error .emptyLociList ∧
    Except.error PGError.emptyLociList ≠ Except.ok popLocusRecord := by
  refine ⟨?_, by decide, ?_, by decide⟩
  · unfold parse parseFull parsePops
    decide
  · unfold parse parseFull
    decide

/-- C1 (amended): serializing then reparsing is the identity on every Record
satisfying the well-formedness invariant `WFB` (nonempty locus list and
population list, serializable names, alleles positive and within the width),
for both width 2 and width 3; and conversely every record parsing produces
satisfies `WFB` at a width compatible with the established one — except for
records with a `pop`-like locus name, which is exactly the exclusion the
counterexample forces. -/
theorem C1_serialize_parse_roundtrip :
    (∀ (w : Nat) (r : Record), WFB w r = true →
      ∃ lines st, serialize w r = .ok lines ∧ parseFull lines = .ok (st, r) ∧
        stOK w st ∧ parse lines = .ok r) ∧
    (∀ (lines : List String) (st : Option Nat) (r : Record),
      parseFull lines = .ok (st, r) →
      (∀ L ∈ r.loci_list, isPopLine L.data = false) →
      ∃ w, (w = 2 ∨ w = 3) ∧ stOK w st ∧ WFB w r = true) :=
  ⟨fun _ _ hwf => serialize_parse_roundtrip hwf,
   fun _ _ _ h hpop => parseFull_wf h hpop⟩

/-- C1 witness: the amended round trip at the example record and width 3. -/
theorem C1_serialize_parse_roundtrip_witness :
    WFB 3 exRecord = true ∧
    (∃ lines st, serialize 3 exRecord = .ok lines ∧
      parseFull lines = .ok (st, exRecord) ∧ stOK 3 st ∧ parse lines = .ok exRecord) :=
  ⟨by decide, C1_serialize_parse_roundtrip.1 3 exRecord (by decide)⟩

/-- C10: `split_in_loci` is a pure function of the Record it is applied to:
its result does not depend on the receiver object, and equal source Records
give equal results. -/
theorem C10_split_in_loci_deterministic (self1 self2 r1 r2 : Record) (h : r1 = r2) :
    split_in_loci self1 r1 = split_in_loci self2 r2 := by
  subst h
  rfl

/-- C10 witness: two calls with different receivers and equal arguments. -/
theorem C10_split_in_loci_deterministic_witness :
    split_in_loci (Record.mk "" [] []) exRecord = split_in_loci exRecord exRecord :=
  C10_split_in_loci_deterministic (Record.mk "" [] []) exRecord exRecord exRecord rfl

end GenePop
